import Mathlib

/-!
# binary-bounce: particle integration, rasterisation and the bit-buffer decoder

Shallow embedding of `app.cpp`.

Conventions of the embedding.

* `double` values are read as exact rationals (`ℚ`); the literals `2.222`, `0.85`
  and `0.09` are the rationals they denote.  The additions of
  `Particle::applyForce`, whose order a caller can observe through rounding, are
  also given in IEEE 754 binary64 arithmetic (`fadd`, `applyForceDouble`).
* `int` values are `Int`; arithmetic that can leave the 32-bit range is wrapped
  with `wrap32`.  The write cursor `charBuffer_index`, which the program only
  initialises to `0` and increments, is a `Nat`.
* Pointers become explicit state passing.  The back-reference `ws` held by a
  `Particle` or `ParticleSystem` is the `WorldSpace` argument of the operation,
  and an operation that mutates the pointee returns the new `WorldSpace`.  A call
  through a null back-reference (a particle added before its system was
  registered) has no defined behaviour and is outside the embedding.  The
  vector `particleSystems` of registered systems is the list of the current
  contents of the registered systems, in registration order.
* `renderData` is a function on index pairs of which only the cells
  `0 ≤ row < rows`, `0 ≤ col < cols` exist; a store to any other index has no
  defined behaviour and makes the operation return `none`.
* `charBuffer` is a function on indices of which only `0 .. 127` exist; every
  store the program performs is guarded by `charBuffer_index < 127`.
* A method that returns a value and could write to its object returns the object
  together with the value (`getParticleAt`); `World` pairs a world space with the
  systems registered with it, for statements about both.
-/

namespace BinaryBounce

/-! ## Machine arithmetic -/

/-- Wrap-around of a value into the 32-bit `int` range (two-complement
representation). -/
def wrap32 (n : Int) : Int := (n + 2147483648) % 4294967296 - 2147483648

/-- The conversion `(char)n` of an `int` to a character, with `char` a signed
8-bit type; on the values `0 .. 127` it is the identity. -/
def toChar (n : Int) : Int := (n + 128) % 256 - 128

/-- The conversion `(int)d` of a `double`: truncation toward zero, defined only
when the truncated value is representable as a 32-bit `int`. -/
def toInt (d : ℚ) : Option Int :=
  let t := Int.tdiv d.num d.den
  if -2147483648 ≤ t ∧ t ≤ 2147483647 then some t else none

/-! ## Data model -/

/-- The class `WorldSpace` (fields of lines 23-38). -/
structure WorldSpace where
  rows : Int
  cols : Int
  width : ℚ
  height : ℚ
  renderData : Int → Int → Int
  buffer : Int
  buffer_counter : Int
  charBuffer : Nat → Int
  charBuffer_index : Nat

/-- The class `Particle` (fields of lines 63-71). -/
structure Particle where
  x : ℚ
  y : ℚ
  vx : ℚ
  vy : ℚ
  ax : ℚ
  ay : ℚ
  value : Int

/-- The class `ParticleSystem`: its vector of particles. -/
structure ParticleSystem where
  particles : List Particle

/-- The member constant `Particle::COLLISION_DAMPENING`. -/
def COLLISION_DAMPENING : ℚ := 0.85

/-- The member constant `WorldSpace::FAKE_MODE`. -/
def FAKE_MODE : Bool := false

/-- The member constant `WorldSpace::FAKE_TEXT`, as character codes. -/
def FAKE_TEXT : List Int :=
  "you can make the program print fake text!".toList.map (fun c => (c.toNat : Int))

/-! ## WorldSpace -/

/-- The constructor `WorldSpace::WorldSpace(num_rows, num_cols)`.  The array
`charBuffer` is allocated but not initialised: `uninit` is its content. -/
def WorldSpace.new (num_rows num_cols : Int) (uninit : Nat → Int) : WorldSpace :=
  { cols := num_cols
    width := (num_cols : ℚ)
    rows := num_rows
    height := (num_rows : ℚ) * 2.222
    renderData := fun _ _ => 0
    buffer := 0
    buffer_counter := 0
    charBuffer := uninit
    charBuffer_index := 0 }

/-- The accessor `WorldSpace::getBuffer`. -/
def WorldSpace.getBuffer (ws : WorldSpace) : Int := ws.buffer

/-- The method `WorldSpace::clearBuffer`. -/
def WorldSpace.clearBuffer (ws : WorldSpace) : WorldSpace :=
  { ws with buffer := 0, buffer_counter := 0 }

/-- The method `WorldSpace::processBuffer`. -/
def WorldSpace.processBuffer (ws : WorldSpace) : WorldSpace :=
  let out := toChar ws.buffer
  let out := if out < 32 then 32 else out
  if ws.charBuffer_index < 127 then
    if FAKE_MODE then
      { ws with
        charBuffer := Function.update ws.charBuffer ws.charBuffer_index
          (FAKE_TEXT.getD ws.charBuffer_index 0)
        charBuffer_index := ws.charBuffer_index + 1 }
    else
      { ws with
        charBuffer := Function.update ws.charBuffer ws.charBuffer_index out
        charBuffer_index := ws.charBuffer_index + 1 }
  else ws

/-- The method `WorldSpace::addToBuffer`. -/
def WorldSpace.addToBuffer (ws : WorldSpace) (input : Int) : WorldSpace :=
  let ws := { ws with buffer := wrap32 (ws.buffer <<< (1 : Int)) }
  let ws := { ws with buffer := Int.lor ws.buffer (Int.land input 1) }
  let ws := { ws with buffer_counter := wrap32 (ws.buffer_counter + 1) }
  if ws.buffer_counter ≥ 7 then ws.processBuffer.clearBuffer else ws

/-- The body of the inner loop of `WorldSpace::getRenderData` (lines 149-154):
the cell of one particle is computed and the value of the particle stored there. -/
def WorldSpace.renderParticle (ws : WorldSpace) (p : Particle) : Option WorldSpace :=
  match toInt p.x, toInt (p.y / 2.222) with
  | some x, some y =>
    let v := p.value
    let y := if y > ws.rows - 1 then ws.rows - 1 else y
    let x := if x > ws.cols - 1 then ws.cols - 1 else x
    if 0 ≤ y ∧ y < ws.rows ∧ 0 ≤ x ∧ x < ws.cols then
      some { ws with
        renderData := fun i j => if i = y ∧ j = x then v else ws.renderData i j }
    else none
  | _, _ => none

/-- The inner loop of `WorldSpace::getRenderData` over the particles of one
system. -/
def WorldSpace.renderParticles (ws : WorldSpace) : List Particle → Option WorldSpace
  | [] => some ws
  | p :: rest =>
    match ws.renderParticle p with
    | some ws1 => ws1.renderParticles rest
    | none => none

/-- The method `WorldSpace::getRenderData`: the outer loop over the registered
particle systems. -/
def WorldSpace.getRenderData (ws : WorldSpace) : List ParticleSystem → Option WorldSpace
  | [] => some ws
  | ps :: rest =>
    match ws.renderParticles ps.particles with
    | some ws1 => ws1.getRenderData rest
    | none => none

/-! ## Particle -/

/-- The constructor `Particle::Particle(start_x, start_y, in_value)`. -/
def Particle.new (start_x start_y : ℚ) (in_value : Int) : Particle :=
  { x := start_x, y := start_y, value := in_value, vx := 0, vy := 0, ax := 0, ay := 0 }

/-- The x-axis part of `Particle::update` (lines 225-239). -/
def Particle.updateX (p : Particle) (width : ℚ) : Particle :=
  let p := { p with vx := p.vx + p.ax }
  let p := { p with ax := 0 }
  let p : Particle :=
    if p.x + p.vx > width then
      let p := { p with x := width + ((width - p.x) - p.vx) }
      let p := { p with vx := -p.vx }
      { p with vx := p.vx * COLLISION_DAMPENING }
    else if p.x + p.vx < 0 then
      let p := { p with x := -p.x - p.vx }
      let p := { p with vx := -p.vx }
      { p with vx := p.vx * COLLISION_DAMPENING }
    else
      { p with x := p.x + p.vx }
  let p : Particle := if p.x > width then { p with x := width } else p
  if p.x < 0 then { p with x := 0 } else p

/-- The y-axis part of `Particle::update` (lines 242-258); the floor bounce
calls `addToBuffer` on the world space of the particle. -/
def Particle.updateY (p : Particle) (ws : WorldSpace) (height : ℚ) : WorldSpace × Particle :=
  let p := { p with vy := p.vy + p.ay }
  let p := { p with ay := 0 }
  let r : WorldSpace × Particle :=
    if p.y + p.vy > height then
      let p := { p with y := height + ((height - p.y) - p.vy) }
      let p := { p with vy := -p.vy }
      let p := { p with vy := p.vy * COLLISION_DAMPENING }
      (ws.addToBuffer (wrap32 (p.value - 1)), p)
    else if p.y + p.vy < 0 then
      let p := { p with y := -p.y - p.vy }
      let p := { p with vy := -p.vy }
      (ws, { p with vy := p.vy * COLLISION_DAMPENING })
    else
      (ws, { p with y := p.y + p.vy })
  let ws := r.1
  let p := r.2
  let p : Particle := { p with y := p.y + p.vy }
  let p : Particle := if p.y > height then { p with y := height } else p
  let p : Particle := if p.y < 0 then { p with y := 0 } else p
  (ws, p)

/-- The method `Particle::update`, run on a particle whose back-reference is
`ws`. -/
def Particle.update (p : Particle) (ws : WorldSpace) : WorldSpace × Particle :=
  let height := ws.height
  let width := ws.width
  (p.updateX width).updateY ws height

/-- The method `Particle::applyForce`, with exact additions. -/
def Particle.applyForce (p : Particle) (fx fy : ℚ) : Particle :=
  let p := { p with ax := p.ax + fx }
  { p with ay := p.ay + fy }

/-! ## ParticleSystem -/

/-- The constructor `ParticleSystem::ParticleSystem`. -/
def ParticleSystem.new : ParticleSystem := { particles := [] }

/-- The loop of `ParticleSystem::updateParticles` over the remaining particles. -/
def updateLoop : List Particle → WorldSpace → WorldSpace × List Particle
  | [], ws => (ws, [])
  | p :: rest, ws =>
    let r := p.update ws
    let s := updateLoop rest r.1
    (s.1, r.2 :: s.2)

/-- The method `ParticleSystem::updateParticles`, run on a system whose
back-reference is `ws`. -/
def ParticleSystem.updateParticles (ps : ParticleSystem) (ws : WorldSpace) :
    WorldSpace × ParticleSystem :=
  let s := updateLoop ps.particles ws
  (s.1, { ps with particles := s.2 })

/-- The method `ParticleSystem::applyForce`. -/
def ParticleSystem.applyForce (ps : ParticleSystem) (fx fy : ℚ) : ParticleSystem :=
  { ps with particles := ps.particles.map (fun p => p.applyForce fx fy) }

/-- The method `ParticleSystem::addParticle`. -/
def ParticleSystem.addParticle (ps : ParticleSystem) (x y : ℚ) (value : Int) : ParticleSystem :=
  let p := Particle.new x y value
  { ps with particles := ps.particles ++ [p] }

/-- The loop of `ParticleSystem::addParticles`, with `n` iterations left. -/
def addParticlesLoop : Nat → ParticleSystem → ℚ → ℚ → Int → ParticleSystem
  | 0, ps, _, _, _ => ps
  | n + 1, ps, x, y, value => addParticlesLoop n (ps.addParticle x y value) x y value

/-- The method `ParticleSystem::addParticles`: the loop `for (i = 0; i < count; i++)`
runs `count` times when `count` is positive and not at all otherwise. -/
def ParticleSystem.addParticles (ps : ParticleSystem) (count : Int) (x y : ℚ) (value : Int) :
    ParticleSystem :=
  addParticlesLoop count.toNat ps x y value

/-! ## Call sequences and the end-to-end scenario -/

/-- A sequence of `addToBuffer` calls, one per element of `inputs`, in order. -/
def addBits (ws : WorldSpace) (inputs : List Int) : WorldSpace :=
  inputs.foldl WorldSpace.addToBuffer ws

/-- One frame of the loop of `main` (lines 375-376): `ps.applyForce(fx, fy)`
followed by `ps.updateParticles()`. -/
def tick (fx fy : ℚ) (s : WorldSpace × ParticleSystem) : WorldSpace × ParticleSystem :=
  (s.2.applyForce fx fy).updateParticles s.1

/-- The frame loop of `main`, with the force applied in each successive frame
given by `forces`. -/
def runFrames : List (ℚ × ℚ) → WorldSpace × ParticleSystem → WorldSpace × ParticleSystem
  | [], s => s
  | f :: fs, s => runFrames fs (tick f.1 f.2 s)

/-- The end-to-end scenario: `WorldSpace(15, 33)` and one system holding
`addParticles(10, 1, 1, 2)`. -/
def scenario (uninit : Nat → Int) : WorldSpace × ParticleSystem :=
  (WorldSpace.new 15 33 uninit, ParticleSystem.new.addParticles 10 1 1 2)

/-- A position inside the closed rectangle `[0, w] × [0, h]`. -/
def InBounds (w h : ℚ) (p : Particle) : Prop := 0 ≤ p.x ∧ p.x ≤ w ∧ 0 ≤ p.y ∧ p.y ≤ h

instance (w h : ℚ) (p : Particle) : Decidable (InBounds w h p) := by
  unfold InBounds; infer_instance

/-- The state of the decoder after `n` emitted bits, counted from construction:
the counter is `n mod 7`, the accumulator holds `n mod 7` bits, the cursor is
the number of completed characters capped at 127, and every stored character is
printable. -/
def DecoderInv (n : Nat) (ws : WorldSpace) : Prop :=
  ws.buffer_counter = ((n % 7 : Nat) : Int) ∧ 0 ≤ ws.buffer ∧ ws.buffer < 2 ^ (n % 7) ∧
    ws.charBuffer_index = min (n / 7) 127 ∧
    ∀ k < ws.charBuffer_index, 32 ≤ ws.charBuffer k ∧ ws.charBuffer k ≤ 127

instance (n : Nat) (ws : WorldSpace) : Decidable (DecoderInv n ws) := by
  unfold DecoderInv; infer_instance

/-- The arguments of the `addToBuffer` calls made by one `updateParticles` pass
over `l` against a world space of height `h`, in iteration order: one per
particle that takes the floor-bounce branch. -/
def emittedBits (h : ℚ) (l : List Particle) : List Int :=
  (l.filter (fun p => decide (p.y + (p.vy + p.ay) > h))).map (fun p => wrap32 (p.value - 1))

/-- Two particles at `(1, 33)` with tags 1 and 2, added in this order and pushed
down by the force `(0, 1)`: both bounce off the floor of a 15-row world space in
the next pass. -/
def pairA : ParticleSystem :=
  ((ParticleSystem.new.addParticle 1 33 1).addParticle 1 33 2).applyForce 0 1

/-- The particles of `pairA` added in the other order. -/
def pairB : ParticleSystem :=
  ((ParticleSystem.new.addParticle 1 33 2).addParticle 1 33 1).applyForce 0 1

/-- Seven floor bouncers: the first with tag 2, six with tag 1. -/
def septetA : ParticleSystem :=
  ((ParticleSystem.new.addParticle 1 33 2).addParticles 6 1 33 1).applyForce 0 1

/-- The particles of `septetA` with the first two exchanged. -/
def septetB : ParticleSystem :=
  (((ParticleSystem.new.addParticle 1 33 1).addParticle 1 33 2).addParticles 5 1 33 1).applyForce
    0 1

/-! ## Grid reset, particle lookup and the world as a whole -/

/-- The inner loop of `WorldSpace::resetRenderData` for row `i`:
`renderData[i][j] = 0` for `j = 0, ..., cols - 1`. -/
def resetRow (cols : Int) (g : Int → Int → Int) (i : Int) : Int → Int → Int :=
  (List.range cols.toNat).foldl
    (fun (g : Int → Int → Int) (j : Nat) =>
      fun a b => if a = i ∧ b = (j : Int) then 0 else g a b) g

/-- The method `WorldSpace::resetRenderData`: the outer loop over
`i = 0, ..., rows - 1`. -/
def WorldSpace.resetRenderData (ws : WorldSpace) : WorldSpace :=
  { ws with
    renderData := (List.range ws.rows.toNat).foldl
      (fun (g : Int → Int → Int) (i : Nat) => resetRow ws.cols g (i : Int)) ws.renderData }

/-- The cell `(y, x)` that the loop body of `WorldSpace::getRenderData` computes
for a particle (lines 149-153), before the store. -/
def WorldSpace.cellOf (ws : WorldSpace) (p : Particle) : Option (Int × Int) :=
  match toInt p.x, toInt (p.y / 2.222) with
  | some x, some y =>
    some (if y > ws.rows - 1 then ws.rows - 1 else y, if x > ws.cols - 1 then ws.cols - 1 else x)
  | _, _ => none

/-- The particles in the order in which `WorldSpace::getRenderData` visits them:
systems in registration order, particles in insertion order within a system. -/
def allParticles : List ParticleSystem → List Particle
  | [] => []
  | ps :: rest => ps.particles ++ allParticles rest

/-- The value stored last in cell `(i, j)` by a pass over `l`, if any particle
of `l` has that cell. -/
def lastTag (ws : WorldSpace) (i j : Int) : List Particle → Option Int
  | [] => none
  | p :: rest =>
    match lastTag ws i j rest with
    | some v => some v
    | none => if ws.cellOf p = some (i, j) then some p.value else none

/-- The conversion of an `int` to the unsigned 64-bit type `size_t`. -/
def toSizeT (n : Int) : Int := n % 18446744073709551616

/-- The method `ParticleSystem::getParticleAt`.  The comparison
`pos >= particles.size()` is made after converting `pos` to `size_t`, and so is
the index passed to `at`.  The result is the system, which the method does not
modify, and the particle pointed to, `none` standing for `NULL`. -/
def ParticleSystem.getParticleAt (ps : ParticleSystem) (pos : Int) :
    ParticleSystem × Option Particle :=
  if toSizeT pos ≥ (ps.particles.length : Int) ∨ pos < 0 then (ps, none)
  else (ps, ps.particles.get? (toSizeT pos).toNat)

/-- A world space together with the particle systems registered with it (the
pointees of its vector `particleSystems`), in registration order. -/
structure World where
  ws : WorldSpace
  particleSystems : List ParticleSystem

/-- The method `WorldSpace::getRenderData` on a world: the loops read the
particles through `getX`, `getY` and `getValue` and store into the grid of the
world space. -/
def World.getRenderData (w : World) : Option World :=
  match w.ws.getRenderData w.particleSystems with
  | some ws1 => some { w with ws := ws1 }
  | none => none

/-- The decoded message: the characters below the write cursor. -/
def WorldSpace.message (ws : WorldSpace) : List Int :=
  (List.range ws.charBuffer_index).map ws.charBuffer

/-- The index pair `(i, j)` is a cell of the grid allocated by the constructor. -/
def WorldSpace.InGrid (ws : WorldSpace) (i j : Int) : Prop :=
  0 ≤ i ∧ i < ws.rows ∧ 0 ≤ j ∧ j < ws.cols

instance (ws : WorldSpace) (i j : Int) : Decidable (ws.InGrid i j) := by
  unfold WorldSpace.InGrid; infer_instance

/-! ## Double arithmetic

The one place where the rounding of `double` additions is kept: the additions of
`Particle::applyForce`, whose order the program can observe. -/

/-- Rounding to the nearest integer, a tie going to the even one. -/
def roundTiesEven (q : ℚ) : Int :=
  let f := ⌊q⌋
  let r := q - (f : ℚ)
  if r < 1 / 2 then f else if 1 / 2 < r then f + 1 else if f % 2 = 0 then f else f + 1

/-- Rounding of a real value to IEEE 754 binary64 with an exponent range
unbounded above: 53 significant bits, round to nearest, ties to even, subnormal
below `2 ^ (-1022)`. -/
@[irreducible]
def roundDouble (q : ℚ) : ℚ :=
  if q = 0 then 0
  else
    let e := max (Int.log 2 |q|) (-1022)
    let ulp := (2 : ℚ) ^ (e - 52)
    (roundTiesEven (q / ulp) : ℚ) * ulp

/-- The `double` addition `a + b` of two finite doubles: the exact sum rounded
to binary64, `none` when the rounded sum is beyond the largest finite double
(the program then holds an infinity, which has no rational value). -/
@[irreducible]
def fadd (a b : ℚ) : Option ℚ :=
  let r := roundDouble (a + b)
  if |r| < (2 : ℚ) ^ (1024 : ℕ) then some r else none

/-- The method `Particle::applyForce` with its two `+=` read as `double`
additions of finite doubles. -/
def Particle.applyForceDouble (p : Particle) (fx fy : ℚ) : Option Particle :=
  match fadd p.ax fx, fadd p.ay fy with
  | some ax, some ay => some { p with ax := ax, ay := ay }
  | _, _ => none

/-- A sequence of `applyForce` calls in double arithmetic, one per element of
`forces`, in order. -/
def applyForcesDouble : List (ℚ × ℚ) → Particle → Option Particle
  | [], p => some p
  | f :: fs, p =>
    match p.applyForceDouble f.1 f.2 with
    | some q => applyForcesDouble fs q
    | none => none

/-- The `double` addition `a + b` is exact: the sum is a finite double, so
nothing is rounded. -/
def ExactAdd (a b : ℚ) : Prop := fadd a b = some (a + b)

instance (a b : ℚ) : Decidable (ExactAdd a b) := by
  unfold ExactAdd; infer_instance

/-! ## Machine arithmetic lemmas -/

theorem land_zero_right (m : Int) : Int.land m 0 = 0 := by
  cases m <;> simp [Int.land, Nat.ldiff, Nat.bitwise_zero_left]

theorem lor_zero_right (m : Int) : Int.lor m 0 = m := by
  cases m <;> simp [Int.lor, Nat.ldiff, Nat.bitwise_zero_right]

theorem land_one_eq (i : Int) : Int.land i 1 = i % 2 := by
  have h1 : (1 : Int) = Int.bit true 0 := by simp [Int.bit_val]
  conv_lhs => rw [← Int.bit_decomp i, h1, Int.land_bit, land_zero_right]
  rw [Int.bit_val]
  have := Int.bodd_add_div2 i
  cases hb : Int.bodd i <;> simp [hb] at this ⊢ <;> omega

theorem lor_even (m e : Int) (hm : m % 2 = 0) (he : e = 0 ∨ e = 1) : Int.lor m e = m + e := by
  have hm2 : m = Int.bit false (m / 2) := by rw [Int.bit_val]; simp; omega
  rcases he with rfl | rfl
  · simp [lor_zero_right]
  · have h1 : (1 : Int) = Int.bit true 0 := by simp [Int.bit_val]
    conv_lhs => rw [hm2, h1, Int.lor_bit, lor_zero_right]
    rw [Int.bit_val]; simp; omega

theorem shiftLeft_one_eq (b : Int) : b <<< (1 : Int) = 2 * b := by
  have := Int.shiftLeft_eq_mul_pow b 1
  simp at this
  rw [this]; ring

theorem wrap32_eq_self (n : Int) (h1 : -2147483648 ≤ n) (h2 : n ≤ 2147483647) : wrap32 n = n := by
  unfold wrap32; omega

theorem wrap32_mod_two (n : Int) : wrap32 n % 2 = n % 2 := by
  unfold wrap32; omega

/-! ## Effect of `addToBuffer` on each field -/

theorem addToBuffer_rows (ws : WorldSpace) (i : Int) : (ws.addToBuffer i).rows = ws.rows := by
  unfold WorldSpace.addToBuffer WorldSpace.processBuffer WorldSpace.clearBuffer
  simp only [FAKE_MODE]; split_ifs <;> rfl

theorem addToBuffer_cols (ws : WorldSpace) (i : Int) : (ws.addToBuffer i).cols = ws.cols := by
  unfold WorldSpace.addToBuffer WorldSpace.processBuffer WorldSpace.clearBuffer
  simp only [FAKE_MODE]; split_ifs <;> rfl

theorem addToBuffer_width (ws : WorldSpace) (i : Int) : (ws.addToBuffer i).width = ws.width := by
  unfold WorldSpace.addToBuffer WorldSpace.processBuffer WorldSpace.clearBuffer
  simp only [FAKE_MODE]; split_ifs <;> rfl

theorem addToBuffer_height (ws : WorldSpace) (i : Int) :
    (ws.addToBuffer i).height = ws.height := by
  unfold WorldSpace.addToBuffer WorldSpace.processBuffer WorldSpace.clearBuffer
  simp only [FAKE_MODE]; split_ifs <;> rfl

theorem addToBuffer_renderData (ws : WorldSpace) (i : Int) :
    (ws.addToBuffer i).renderData = ws.renderData := by
  unfold WorldSpace.addToBuffer WorldSpace.processBuffer WorldSpace.clearBuffer
  simp only [FAKE_MODE]; split_ifs <;> rfl

/-- The accumulator after the shift and the or, before the counter test. -/
theorem shifted_eq (b i : Int) :
    Int.lor (wrap32 (b <<< (1 : Int))) (Int.land i 1) = wrap32 (2 * b) + i % 2 := by
  rw [shiftLeft_one_eq, land_one_eq]
  apply lor_even
  · unfold wrap32; omega
  · omega

theorem addToBuffer_counter (ws : WorldSpace) (i : Int) :
    (ws.addToBuffer i).buffer_counter =
      if 7 ≤ wrap32 (ws.buffer_counter + 1) then 0 else wrap32 (ws.buffer_counter + 1) := by
  unfold WorldSpace.addToBuffer WorldSpace.processBuffer WorldSpace.clearBuffer
  simp only [FAKE_MODE, ge_iff_le]; split_ifs <;> rfl

theorem addToBuffer_buffer (ws : WorldSpace) (i : Int) :
    (ws.addToBuffer i).buffer =
      if 7 ≤ wrap32 (ws.buffer_counter + 1) then 0 else wrap32 (2 * ws.buffer) + i % 2 := by
  unfold WorldSpace.addToBuffer WorldSpace.processBuffer WorldSpace.clearBuffer
  simp only [FAKE_MODE, ge_iff_le, shifted_eq]; split_ifs <;> rfl

theorem addToBuffer_index (ws : WorldSpace) (i : Int) :
    (ws.addToBuffer i).charBuffer_index =
      if 7 ≤ wrap32 (ws.buffer_counter + 1) ∧ ws.charBuffer_index < 127
      then ws.charBuffer_index + 1 else ws.charBuffer_index := by
  unfold WorldSpace.addToBuffer WorldSpace.processBuffer WorldSpace.clearBuffer
  simp only [FAKE_MODE, ge_iff_le]; split_ifs <;> simp_all

theorem addToBuffer_charBuffer (ws : WorldSpace) (i : Int) :
    (ws.addToBuffer i).charBuffer =
      if 7 ≤ wrap32 (ws.buffer_counter + 1) ∧ ws.charBuffer_index < 127
      then Function.update ws.charBuffer ws.charBuffer_index
        (if toChar (wrap32 (2 * ws.buffer) + i % 2) < 32 then 32
          else toChar (wrap32 (2 * ws.buffer) + i % 2))
      else ws.charBuffer := by
  unfold WorldSpace.addToBuffer WorldSpace.processBuffer WorldSpace.clearBuffer
  simp only [FAKE_MODE, ge_iff_le, shifted_eq]
  split_ifs <;> simp_all

/-- The call depends on its argument only through the lowest bit of the argument. -/
theorem addToBuffer_congr (ws : WorldSpace) (i j : Int) (h : i % 2 = j % 2) :
    ws.addToBuffer i = ws.addToBuffer j := by
  unfold WorldSpace.addToBuffer
  simp only [land_one_eq, h]

/-! ## Integration step: frame and bounds -/

theorem updateX_bounds (p : Particle) (w : ℚ) (hw : 0 ≤ w) :
    0 ≤ (p.updateX w).x ∧ (p.updateX w).x ≤ w := by
  unfold Particle.updateX
  simp only
  split_ifs <;> constructor <;> simp_all

theorem updateY_x (p : Particle) (ws : WorldSpace) (h : ℚ) : (p.updateY ws h).2.x = p.x := by
  unfold Particle.updateY
  simp only
  split_ifs <;> rfl

theorem updateY_bounds (p : Particle) (ws : WorldSpace) (h : ℚ) (hh : 0 ≤ h) :
    0 ≤ (p.updateY ws h).2.y ∧ (p.updateY ws h).2.y ≤ h := by
  unfold Particle.updateY
  simp only
  split_ifs <;> constructor <;> simp_all

theorem update_bounds (p : Particle) (ws : WorldSpace) (hw : 0 ≤ ws.width) (hh : 0 ≤ ws.height) :
    0 ≤ (p.update ws).2.x ∧ (p.update ws).2.x ≤ ws.width ∧
      0 ≤ (p.update ws).2.y ∧ (p.update ws).2.y ≤ ws.height := by
  unfold Particle.update
  simp only [updateY_x]
  exact ⟨(updateX_bounds p _ hw).1, (updateX_bounds p _ hw).2,
    (updateY_bounds _ ws _ hh).1, (updateY_bounds _ ws _ hh).2⟩

/-- The world space after the y-axis part: one `addToBuffer` call on a floor
bounce, no change otherwise. -/
theorem updateY_ws (p : Particle) (ws : WorldSpace) (h : ℚ) :
    (p.updateY ws h).1 =
      if p.y + (p.vy + p.ay) > h then ws.addToBuffer (wrap32 (p.value - 1)) else ws := by
  unfold Particle.updateY
  simp only
  split_ifs <;> rfl

theorem updateX_y (p : Particle) (w : ℚ) : (p.updateX w).y = p.y := by
  unfold Particle.updateX; simp only; split_ifs <;> rfl

theorem updateX_vy (p : Particle) (w : ℚ) : (p.updateX w).vy = p.vy := by
  unfold Particle.updateX; simp only; split_ifs <;> rfl

theorem updateX_ay (p : Particle) (w : ℚ) : (p.updateX w).ay = p.ay := by
  unfold Particle.updateX; simp only; split_ifs <;> rfl

theorem updateX_value (p : Particle) (w : ℚ) : (p.updateX w).value = p.value := by
  unfold Particle.updateX; simp only; split_ifs <;> rfl

/-- The world space after `update`. -/
theorem update_ws (p : Particle) (ws : WorldSpace) :
    (p.update ws).1 =
      if p.y + (p.vy + p.ay) > ws.height then ws.addToBuffer (wrap32 (p.value - 1)) else ws := by
  unfold Particle.update
  simp only [updateY_ws, updateX_y, updateX_vy, updateX_ay, updateX_value]

theorem update_width (p : Particle) (ws : WorldSpace) : (p.update ws).1.width = ws.width := by
  rw [update_ws]; split_ifs <;> simp [addToBuffer_width]

theorem update_height (p : Particle) (ws : WorldSpace) : (p.update ws).1.height = ws.height := by
  rw [update_ws]; split_ifs <;> simp [addToBuffer_height]

theorem updateLoop_width (l : List Particle) (ws : WorldSpace) :
    (updateLoop l ws).1.width = ws.width := by
  induction l generalizing ws with
  | nil => rfl
  | cons p rest ih => simp only [updateLoop]; rw [ih, update_width]

theorem updateLoop_height (l : List Particle) (ws : WorldSpace) :
    (updateLoop l ws).1.height = ws.height := by
  induction l generalizing ws with
  | nil => rfl
  | cons p rest ih => simp only [updateLoop]; rw [ih, update_height]

theorem updateLoop_bounds (l : List Particle) (ws : WorldSpace) (w h : ℚ)
    (ew : ws.width = w) (eh : ws.height = h) (hw : 0 ≤ w) (hh : 0 ≤ h) :
    ∀ q ∈ (updateLoop l ws).2, InBounds w h q := by
  induction l generalizing ws with
  | nil => intro q hq; simp [updateLoop] at hq
  | cons p rest ih =>
    intro q hq
    simp only [updateLoop, List.mem_cons] at hq
    rcases hq with rfl | hq
    · have := update_bounds p ws (ew ▸ hw) (eh ▸ hh)
      rw [ew, eh] at this
      exact this
    · exact ih (p.update ws).1 (by rw [update_width, ew]) (by rw [update_height, eh]) q hq

theorem tick_bounds (fx fy : ℚ) (s : WorldSpace × ParticleSystem) (w h : ℚ)
    (ew : s.1.width = w) (eh : s.1.height = h) (hw : 0 ≤ w) (hh : 0 ≤ h) :
    (tick fx fy s).1.width = w ∧ (tick fx fy s).1.height = h ∧
      ∀ q ∈ (tick fx fy s).2.particles, InBounds w h q := by
  unfold tick ParticleSystem.updateParticles
  refine ⟨by simp only [updateLoop_width, ew], by simp only [updateLoop_height, eh], ?_⟩
  exact updateLoop_bounds _ _ w h ew eh hw hh

theorem runFrames_bounds (forces : List (ℚ × ℚ)) (s : WorldSpace × ParticleSystem) (w h : ℚ)
    (ew : s.1.width = w) (eh : s.1.height = h) (hw : 0 ≤ w) (hh : 0 ≤ h)
    (h0 : forces = [] → ∀ q ∈ s.2.particles, InBounds w h q) :
    ∀ q ∈ (runFrames forces s).2.particles, InBounds w h q := by
  induction forces generalizing s with
  | nil => exact h0 rfl
  | cons f fs ih =>
    simp only [runFrames]
    have t := tick_bounds f.1 f.2 s w h ew eh hw hh
    exact ih _ t.1 t.2.1 (fun _ => t.2.2)

theorem addParticlesLoop_particles (n : Nat) (ps : ParticleSystem) (x y : ℚ) (v : Int) :
    (addParticlesLoop n ps x y v).particles =
      ps.particles ++ List.replicate n (Particle.new x y v) := by
  induction n generalizing ps with
  | zero => simp [addParticlesLoop]
  | succ n ih =>
    simp only [addParticlesLoop, ih, ParticleSystem.addParticle, List.replicate_succ,
      List.append_assoc, List.singleton_append]

/-- C1. One `Particle.update` against a world space with `rows > 0`, `cols > 0`,
`width = cols`, `height = rows * 2.222` leaves any particle state whatsoever at
`0 ≤ x ≤ width`, `0 ≤ y ≤ height`; hence after one or more frames with any
forces every particle of a system is inside these bounds, and in the scenario
`WorldSpace(15, 33)`, `addParticles(10, 1, 1, 2)`, force `(0, 0.09)` per frame
every particle stays in `[0, 33] × [0, 33.33]` after any number of frames. -/
theorem boundary_clamp_invariant (ws : WorldSpace) (p : Particle)
    (hr : 0 < ws.rows) (hc : 0 < ws.cols)
    (hw : ws.width = (ws.cols : ℚ)) (hh : ws.height = (ws.rows : ℚ) * 2.222) :
    (0 ≤ (p.update ws).2.x ∧ (p.update ws).2.x ≤ ws.width ∧
      0 ≤ (p.update ws).2.y ∧ (p.update ws).2.y ≤ ws.height) ∧
    (∀ (ps : ParticleSystem) (f : ℚ × ℚ) (forces : List (ℚ × ℚ)),
      ∀ q ∈ (runFrames (f :: forces) (ws, ps)).2.particles,
        0 ≤ q.x ∧ q.x ≤ ws.width ∧ 0 ≤ q.y ∧ q.y ≤ ws.height) ∧
    (∀ (uninit : Nat → Int) (n : Nat),
      ∀ q ∈ (runFrames (List.replicate n (0, 0.09)) (scenario uninit)).2.particles,
        0 ≤ q.x ∧ q.x ≤ 33 ∧ 0 ≤ q.y ∧ q.y ≤ 33.33) := by
  have hw0 : 0 ≤ ws.width := by rw [hw]; exact_mod_cast hc.le
  have hh0 : 0 ≤ ws.height := by
    rw [hh]
    have : (0 : ℚ) ≤ (ws.rows : ℚ) := by exact_mod_cast hr.le
    positivity
  refine ⟨update_bounds p ws hw0 hh0, ?_, ?_⟩
  · intro ps f forces q hq
    exact runFrames_bounds (f :: forces) (ws, ps) _ _ rfl rfl hw0 hh0 (by simp) q hq
  · intro uninit n q hq
    refine runFrames_bounds _ (scenario uninit) 33 33.33 (by simp [scenario, WorldSpace.new])
      (by norm_num [scenario, WorldSpace.new]) (by norm_num) (by norm_num) ?_ q hq
    intro _ q hq
    simp only [scenario, ParticleSystem.addParticles, addParticlesLoop_particles,
      ParticleSystem.new, List.nil_append] at hq
    rw [List.eq_of_mem_replicate hq]
    norm_num [InBounds, Particle.new]

/-- Witness of C1: the first update of a particle of the scenario. -/
theorem boundary_clamp_invariant_witness :
    0 ≤ (((Particle.new 1 1 2).applyForce 0 0.09).update
        (WorldSpace.new 15 33 (fun _ => 0))).2.y ∧
      (((Particle.new 1 1 2).applyForce 0 0.09).update
        (WorldSpace.new 15 33 (fun _ => 0))).2.y ≤ (WorldSpace.new 15 33 (fun _ => 0)).height :=
  (boundary_clamp_invariant (WorldSpace.new 15 33 (fun _ => 0))
    ((Particle.new 1 1 2).applyForce 0 0.09) (by decide) (by decide)
    (by simp [WorldSpace.new]) (by simp [WorldSpace.new])).1.2.2

/-! ## Velocity and acceleration after an integration step -/

theorem updateX_vx (p : Particle) (w : ℚ) :
    (p.updateX w).vx =
      if p.x + (p.vx + p.ax) > w ∨ p.x + (p.vx + p.ax) < 0 then -0.85 * (p.vx + p.ax)
      else p.vx + p.ax := by
  unfold Particle.updateX
  simp only [COLLISION_DAMPENING]
  split_ifs <;> simp_all <;>
    first | ring1 | (exfalso; rcases ‹_ ∨ _› with h | h <;> linarith)

theorem updateX_ax (p : Particle) (w : ℚ) : (p.updateX w).ax = 0 := by
  unfold Particle.updateX; simp only; split_ifs <;> rfl

theorem updateY_vy (p : Particle) (ws : WorldSpace) (h : ℚ) :
    (p.updateY ws h).2.vy =
      if p.y + (p.vy + p.ay) > h ∨ p.y + (p.vy + p.ay) < 0 then -0.85 * (p.vy + p.ay)
      else p.vy + p.ay := by
  unfold Particle.updateY
  simp only [COLLISION_DAMPENING]
  split_ifs <;> simp_all <;>
    first | ring1 | (exfalso; rcases ‹_ ∨ _› with h | h <;> linarith)

theorem updateY_ay (p : Particle) (ws : WorldSpace) (h : ℚ) : (p.updateY ws h).2.ay = 0 := by
  unfold Particle.updateY; simp only; split_ifs <;> rfl

theorem updateY_vx (p : Particle) (ws : WorldSpace) (h : ℚ) : (p.updateY ws h).2.vx = p.vx := by
  unfold Particle.updateY; simp only; split_ifs <;> rfl

theorem updateY_ax (p : Particle) (ws : WorldSpace) (h : ℚ) : (p.updateY ws h).2.ax = p.ax := by
  unfold Particle.updateY; simp only; split_ifs <;> rfl

theorem updateY_value (p : Particle) (ws : WorldSpace) (h : ℚ) :
    (p.updateY ws h).2.value = p.value := by
  unfold Particle.updateY; simp only; split_ifs <;> rfl

theorem updateX_consume (p : Particle) (w : ℚ) :
    ({ p with vx := p.vx + p.ax, ax := 0 } : Particle).updateX w = p.updateX w := by
  unfold Particle.updateX
  simp only [add_zero]

theorem updateY_consume (p : Particle) (ws : WorldSpace) (h : ℚ) :
    ({ p with vy := p.vy + p.ay, ay := 0 } : Particle).updateY ws h = p.updateY ws h := by
  unfold Particle.updateY
  simp only [add_zero]

theorem updateX_set_y (p : Particle) (w a b : ℚ) :
    ({ p with vy := a, ay := b } : Particle).updateX w = { p.updateX w with vy := a, ay := b } := by
  unfold Particle.updateX
  simp only
  split_ifs <;> rfl

theorem update_consume (p : Particle) (ws : WorldSpace) :
    ({ p with vx := p.vx + p.ax, vy := p.vy + p.ay, ax := 0, ay := 0 } : Particle).update ws
      = p.update ws := by
  unfold Particle.update
  simp only
  rw [← updateY_consume (p.updateX ws.width), ← updateX_consume p, updateX_vy, updateX_ay]
  rw [← updateX_set_y]

/-- C2. `Particle.update` performs exactly one `addToBuffer` call on its world
space, with the bit `(value - 1) & 1`, when `y + vy > height` (`vy` taken after the
pending `ay` was added), and leaves the world space (buffer, buffer_counter,
message buffer, write cursor and everything else) unchanged in every other case. -/
theorem floor_bounce_emission (p : Particle) (ws : WorldSpace) :
    (p.update ws).1 =
      if p.y + (p.vy + p.ay) > ws.height then ws.addToBuffer (Int.land (p.value - 1) 1)
      else ws := by
  rw [update_ws]
  split_ifs
  · apply addToBuffer_congr
    rw [wrap32_mod_two, land_one_eq]
    omega
  · rfl

/-- C7. With `v` the axis velocity after the pending acceleration was added, the
axis velocity after `Particle.update` is `-0.85 * v` when the axis takes a
reflection branch (`pos + v > bound` or `pos + v < 0`) and `v` on the
no-collision branch, for the x axis (bound `width`) and the y axis (bound
`height`). -/
theorem damped_elastic_reflection (p : Particle) (ws : WorldSpace) :
    (p.update ws).2.vx =
      (if p.x + (p.vx + p.ax) > ws.width ∨ p.x + (p.vx + p.ax) < 0
        then -0.85 * (p.vx + p.ax) else p.vx + p.ax) ∧
    (p.update ws).2.vy =
      (if p.y + (p.vy + p.ay) > ws.height ∨ p.y + (p.vy + p.ay) < 0
        then -0.85 * (p.vy + p.ay) else p.vy + p.ay) := by
  unfold Particle.update
  simp only [updateY_vx, updateY_vy, updateX_vx, updateX_y, updateX_vy, updateX_ay, and_self]

/-! ## The bit-buffer decoder -/

theorem addBits_append (ws : WorldSpace) (l : List Int) (i : Int) :
    addBits ws (l ++ [i]) = (addBits ws l).addToBuffer i := by
  simp [addBits, List.foldl_append]

theorem addBits_append_list (ws : WorldSpace) (l m : List Int) :
    addBits ws (l ++ m) = addBits (addBits ws l) m := by
  simp [addBits, List.foldl_append]

theorem decoderInv_new (rows cols : Int) (uninit : Nat → Int) :
    DecoderInv 0 (WorldSpace.new rows cols uninit) := by
  simp [DecoderInv, WorldSpace.new]

theorem two_pow_mod_seven (n : Nat) :
    (2 : Int) ^ (n % 7) ≤ 64 ∧ (n % 7 + 1 < 7 → (2 : Int) ^ ((n + 1) % 7) = 2 * 2 ^ (n % 7)) := by
  have h : n % 7 < 7 := Nat.mod_lt _ (by decide)
  constructor
  · calc (2 : Int) ^ (n % 7) ≤ 2 ^ 6 := pow_le_pow_right₀ (by norm_num) (by omega)
      _ = 64 := by norm_num
  · intro h1
    have : (n + 1) % 7 = n % 7 + 1 := by omega
    rw [this, pow_succ]; ring

theorem decoderInv_step (n : Nat) (ws : WorldSpace) (i : Int) (h : DecoderInv n ws) :
    DecoderInv (n + 1) (ws.addToBuffer i) := by
  obtain ⟨hc, hb0, hb, hidx, hch⟩ := h
  have hm : n % 7 < 7 := Nat.mod_lt _ (by decide)
  have hp := two_pow_mod_seven n
  have hw : wrap32 (ws.buffer_counter + 1) = ws.buffer_counter + 1 :=
    wrap32_eq_self _ (by omega) (by omega)
  have hw2 : wrap32 (2 * ws.buffer) = 2 * ws.buffer := wrap32_eq_self _ (by omega) (by omega)
  have hi := Int.emod_two_eq i
  refine ⟨?_, ?_, ?_, ?_, ?_⟩
  · rw [addToBuffer_counter, hw]; split_ifs <;> omega
  · rw [addToBuffer_buffer, hw, hw2]; split_ifs <;> omega
  · rw [addToBuffer_buffer, hw, hw2]
    split_ifs with h7
    · positivity
    · have := hp.2 (by omega)
      rw [this]; omega
  · rw [addToBuffer_index, hw]; split_ifs <;> omega
  · intro k hk
    rw [addToBuffer_index, hw] at hk
    rw [addToBuffer_charBuffer, hw, hw2]
    by_cases h7 : 7 ≤ ws.buffer_counter + 1 ∧ ws.charBuffer_index < 127
    · rw [if_pos h7] at hk ⊢
      by_cases hkk : k = ws.charBuffer_index
      · subst hkk
        rw [Function.update_same]
        have ht : toChar (2 * ws.buffer + i % 2) = 2 * ws.buffer + i % 2 := by
          unfold toChar; omega
        rw [ht]; split_ifs <;> omega
      · rw [Function.update_noteq hkk]
        exact hch k (by omega)
    · rw [if_neg h7] at hk ⊢
      exact hch k hk

theorem decoderInv_addBits (rows cols : Int) (uninit : Nat → Int) (bits : List Int) :
    DecoderInv bits.length (addBits (WorldSpace.new rows cols uninit) bits) := by
  induction bits using List.reverseRecOn with
  | nil => exact decoderInv_new rows cols uninit
  | append_singleton l i ih =>
    rw [addBits_append, List.length_append, List.length_singleton]
    exact decoderInv_step _ _ i ih

/-- From a counter of `0`, up to six calls only fill the accumulator: the counter
counts them and the cursor and the message stay as they were. -/
theorem addBits_upto_six (ws : WorldSpace) (bits : List Int) (hc : ws.buffer_counter = 0)
    (hl : bits.length ≤ 6) :
    (addBits ws bits).buffer_counter = (bits.length : Int) ∧
      (addBits ws bits).charBuffer_index = ws.charBuffer_index ∧
      (addBits ws bits).charBuffer = ws.charBuffer := by
  induction bits using List.reverseRecOn with
  | nil => simp [addBits, hc]
  | append_singleton l i ih =>
    rw [List.length_append, List.length_singleton] at hl
    obtain ⟨h1, h2, h3⟩ := ih (by omega)
    have hw : wrap32 ((addBits ws l).buffer_counter + 1) = (l.length : Int) + 1 := by
      rw [h1]; exact wrap32_eq_self _ (by omega) (by omega)
    have hn : ¬ (7 : Int) ≤ (l.length : Int) + 1 := by omega
    rw [addBits_append, addToBuffer_counter, addToBuffer_index, addToBuffer_charBuffer, hw]
    simp only [hn, false_and, if_false, List.length_append, List.length_singleton, h2, h3,
      Nat.cast_add, Nat.cast_one, and_self]

/-- C3. From any state with `buffer_counter = 0` and the cursor below capacity
(`charBuffer_index < 127`), seven consecutive `addToBuffer` calls with any
arguments advance the cursor by exactly one and leave `buffer` and
`buffer_counter` at `0`; after each of the first six of them the cursor and the
message are unchanged. -/
theorem seven_bits_one_character (ws : WorldSpace) (bits : List Int)
    (hc : ws.buffer_counter = 0) (hi : ws.charBuffer_index < 127) (hl : bits.length = 7) :
    (addBits ws bits).charBuffer_index = ws.charBuffer_index + 1 ∧
    (addBits ws bits).buffer = 0 ∧ (addBits ws bits).buffer_counter = 0 ∧
    ∀ k, k < 7 →
      (addBits ws (bits.take k)).charBuffer_index = ws.charBuffer_index ∧
      (addBits ws (bits.take k)).charBuffer = ws.charBuffer := by
  have hk : ∀ k, k < 7 →
      (addBits ws (bits.take k)).buffer_counter = (k : Int) ∧
      (addBits ws (bits.take k)).charBuffer_index = ws.charBuffer_index ∧
      (addBits ws (bits.take k)).charBuffer = ws.charBuffer := by
    intro k hk
    have hlen : (bits.take k).length = k := by rw [List.length_take]; omega
    have := addBits_upto_six ws (bits.take k) hc (by omega)
    rwa [hlen] at this
  obtain ⟨h1, h2, -⟩ := hk 6 (by decide)
  obtain ⟨i, hd⟩ : ∃ i, bits.drop 6 = [i] := by
    have : (bits.drop 6).length = 1 := by rw [List.length_drop]; omega
    exact List.length_eq_one.mp this
  have hsplit : bits = bits.take 6 ++ [i] := by rw [← hd, List.take_append_drop]
  have hw : wrap32 ((addBits ws (bits.take 6)).buffer_counter + 1) = 7 := by
    rw [h1]; decide
  refine ⟨?_, ?_, ?_, fun k hk7 => (hk k hk7).2⟩
  · rw [hsplit, addBits_append, addToBuffer_index, hw, h2]; simp [hi]
  · rw [hsplit, addBits_append, addToBuffer_buffer, hw]; simp
  · rw [hsplit, addBits_append, addToBuffer_counter, hw]; simp

/-- Witness of C3: the seven bits of `A` sent to a freshly constructed world
space. -/
theorem seven_bits_one_character_witness :
    (addBits (WorldSpace.new 15 33 (fun _ => 0)) [1, 0, 0, 0, 0, 0, 1]).charBuffer_index
        = (WorldSpace.new 15 33 (fun _ => 0)).charBuffer_index + 1 ∧
      (addBits (WorldSpace.new 15 33 (fun _ => 0)) [1, 0, 0, 0, 0, 0, 1]).buffer = 0 ∧
      (addBits (WorldSpace.new 15 33 (fun _ => 0)) [1, 0, 0, 0, 0, 0, 1]).buffer_counter = 0 :=
  have h := seven_bits_one_character (WorldSpace.new 15 33 (fun _ => 0)) [1, 0, 0, 0, 0, 0, 1]
    (by decide) (by decide) (by decide)
  ⟨h.1, h.2.1, h.2.2.1⟩

/-- C4. After any sequence of `addToBuffer` calls on a freshly constructed world
space, every character stored below the write cursor has a code between 32 and
127. -/
theorem decoded_characters_printable (rows cols : Int) (uninit : Nat → Int) (bits : List Int)
    (k : Nat) (hk : k < (addBits (WorldSpace.new rows cols uninit) bits).charBuffer_index) :
    32 ≤ (addBits (WorldSpace.new rows cols uninit) bits).charBuffer k ∧
      (addBits (WorldSpace.new rows cols uninit) bits).charBuffer k ≤ 127 :=
  (decoderInv_addBits rows cols uninit bits).2.2.2.2 k hk

/-- Witness of C4: seven zero bits decode to a control code, stored as a space. -/
theorem decoded_characters_printable_witness :
    (addBits (WorldSpace.new 15 33 (fun _ => 0)) [0, 0, 0, 0, 0, 0, 0]).charBuffer 0 = 32 ∧
      32 ≤ (addBits (WorldSpace.new 15 33 (fun _ => 0)) [0, 0, 0, 0, 0, 0, 0]).charBuffer 0 ∧
      (addBits (WorldSpace.new 15 33 (fun _ => 0)) [0, 0, 0, 0, 0, 0, 0]).charBuffer 0 ≤ 127 :=
  ⟨by decide, decoded_characters_printable 15 33 (fun _ => 0) [0, 0, 0, 0, 0, 0, 0] 0 (by decide)⟩

/-- C8. After any sequence of `addToBuffer` calls on a freshly constructed world
space, `0 ≤ buffer_counter < 7` and `0 ≤ buffer < 2 ^ buffer_counter`; so
`getBuffer` returns a value in `0 .. 127` and a counter of `7` is never left
behind by a call. -/
theorem bit_buffer_invariant (rows cols : Int) (uninit : Nat → Int) (bits : List Int) :
    0 ≤ (addBits (WorldSpace.new rows cols uninit) bits).buffer_counter ∧
    (addBits (WorldSpace.new rows cols uninit) bits).buffer_counter < 7 ∧
    0 ≤ (addBits (WorldSpace.new rows cols uninit) bits).buffer ∧
    (addBits (WorldSpace.new rows cols uninit) bits).buffer
      < 2 ^ (addBits (WorldSpace.new rows cols uninit) bits).buffer_counter.toNat ∧
    0 ≤ (addBits (WorldSpace.new rows cols uninit) bits).getBuffer ∧
    (addBits (WorldSpace.new rows cols uninit) bits).getBuffer ≤ 127 ∧
    (addBits (WorldSpace.new rows cols uninit) bits).buffer_counter ≠ 7 := by
  obtain ⟨hc, hb0, hb, -, -⟩ := decoderInv_addBits rows cols uninit bits
  have hm : bits.length % 7 < 7 := Nat.mod_lt _ (by decide)
  have hp := (two_pow_mod_seven bits.length).1
  have ht : (addBits (WorldSpace.new rows cols uninit) bits).buffer_counter.toNat
      = bits.length % 7 := by rw [hc]; exact Int.toNat_ofNat _
  rw [ht]
  unfold WorldSpace.getBuffer
  refine ⟨by omega, by omega, hb0, hb, hb0, by omega, by omega⟩

theorem addBits_full (ws : WorldSpace) (more : List Int) (hfull : ws.charBuffer_index = 127) :
    (addBits ws more).charBuffer_index = 127 ∧ (addBits ws more).charBuffer = ws.charBuffer := by
  induction more using List.reverseRecOn with
  | nil => exact ⟨hfull, rfl⟩
  | append_singleton l i ih =>
    rw [addBits_append, addToBuffer_index, addToBuffer_charBuffer, ih.1, ih.2]
    simp

theorem addBits_beyond (ws : WorldSpace) (bits : List Int) (k : Nat) :
    (addBits ws bits).charBuffer (127 + k) = ws.charBuffer (127 + k) := by
  induction bits using List.reverseRecOn with
  | nil => rfl
  | append_singleton l i ih =>
    rw [addBits_append, addToBuffer_charBuffer]
    by_cases h : 7 ≤ wrap32 ((addBits ws l).buffer_counter + 1) ∧
        (addBits ws l).charBuffer_index < 127
    · rw [if_pos h, Function.update_noteq (by omega), ih]
    · rw [if_neg h, ih]

/-- C5. After any sequence of `addToBuffer` calls on a freshly constructed world
space the write cursor is the number of completed groups of seven bits capped at
127, so it never exceeds 127, and no index from 127 on is ever written; the counter
is the number of bits modulo 7 and the accumulator holds that many bits, so both
are `0` after each seventh bit, whether or not the message is full.  From any
state whose cursor equals 127, further `addToBuffer` calls leave the cursor and
the whole message buffer unchanged. -/
theorem message_capacity_bound (rows cols : Int) (uninit : Nat → Int) (bits : List Int)
    (ws : WorldSpace) (more : List Int) (hfull : ws.charBuffer_index = 127) :
    (addBits (WorldSpace.new rows cols uninit) bits).charBuffer_index ≤ 127 ∧
    (addBits (WorldSpace.new rows cols uninit) bits).charBuffer_index
      = min (bits.length / 7) 127 ∧
    (∀ k, (addBits (WorldSpace.new rows cols uninit) bits).charBuffer (127 + k)
      = uninit (127 + k)) ∧
    (addBits (WorldSpace.new rows cols uninit) bits).buffer_counter
      = ((bits.length % 7 : Nat) : Int) ∧
    0 ≤ (addBits (WorldSpace.new rows cols uninit) bits).buffer ∧
    (addBits (WorldSpace.new rows cols uninit) bits).buffer < 2 ^ (bits.length % 7) ∧
    (addBits ws more).charBuffer_index = 127 ∧
    (addBits ws more).charBuffer = ws.charBuffer := by
  obtain ⟨hc, hb0, hb, hidx, -⟩ := decoderInv_addBits rows cols uninit bits
  refine ⟨?_, hidx, fun k => addBits_beyond _ bits k, hc, hb0, hb,
    (addBits_full ws more hfull).1, (addBits_full ws more hfull).2⟩
  rw [hidx]; exact min_le_right _ _

/-- Witness of C5: a full message buffer receiving seven more bits. -/
theorem message_capacity_bound_witness :
    (addBits { WorldSpace.new 15 33 (fun _ => 32) with charBuffer_index := 127 }
        [1, 0, 0, 0, 0, 0, 1]).charBuffer_index = 127 ∧
      (addBits { WorldSpace.new 15 33 (fun _ => 32) with charBuffer_index := 127 }
        [1, 0, 0, 0, 0, 0, 1]).buffer = 0 :=
  ⟨(message_capacity_bound 15 33 (fun _ => 32) []
      { WorldSpace.new 15 33 (fun _ => 32) with charBuffer_index := 127 }
      [1, 0, 0, 0, 0, 0, 1] rfl).2.2.2.2.2.2.1, by decide⟩

/-! ## One pass of `updateParticles` -/

theorem updateY_snd_congr (p : Particle) (ws ws1 : WorldSpace) (h : ℚ) :
    (p.updateY ws h).2 = (p.updateY ws1 h).2 := by
  unfold Particle.updateY
  simp only
  split_ifs <;> rfl

/-- The particle after `update` depends on the world space only through its
width and height. -/
theorem update_snd_congr (p : Particle) (ws ws1 : WorldSpace) (hw : ws.width = ws1.width)
    (hh : ws.height = ws1.height) : (p.update ws).2 = (p.update ws1).2 := by
  unfold Particle.update
  simp only [hw, hh]
  exact updateY_snd_congr _ _ _ _

theorem updateLoop_particles (l : List Particle) (ws : WorldSpace) :
    (updateLoop l ws).2 = l.map (fun p => (p.update ws).2) := by
  induction l generalizing ws with
  | nil => rfl
  | cons p rest ih =>
    simp only [updateLoop, List.map_cons, ih]
    congr 1
    apply List.map_congr_left
    intro q _
    exact update_snd_congr q _ _ (update_width p ws) (update_height p ws)

theorem addBits_cons (ws : WorldSpace) (i : Int) (l : List Int) :
    addBits ws (i :: l) = addBits (ws.addToBuffer i) l := rfl

theorem updateLoop_ws (l : List Particle) (ws : WorldSpace) :
    (updateLoop l ws).1 = addBits ws (emittedBits ws.height l) := by
  induction l generalizing ws with
  | nil => rfl
  | cons p rest ih =>
    simp only [updateLoop, ih, update_height]
    rw [update_ws]
    unfold emittedBits
    by_cases h : p.y + (p.vy + p.ay) > ws.height
    · simp only [h, if_true, List.filter_cons, decide_True, List.map_cons, addBits_cons]
    · simp only [h, if_false, List.filter_cons, decide_False]
      simp

/-- The counter and the cursor after a sequence of calls depend only on the
number of calls. -/
theorem addBits_counter_index (l1 l2 : List Int) (ws1 ws2 : WorldSpace)
    (hl : l1.length = l2.length) (hc : ws1.buffer_counter = ws2.buffer_counter)
    (hi : ws1.charBuffer_index = ws2.charBuffer_index) :
    (addBits ws1 l1).buffer_counter = (addBits ws2 l2).buffer_counter ∧
      (addBits ws1 l1).charBuffer_index = (addBits ws2 l2).charBuffer_index := by
  induction l1 generalizing l2 ws1 ws2 with
  | nil =>
    cases l2 with
    | nil => exact ⟨hc, hi⟩
    | cons j l2 => simp at hl
  | cons i l1 ih =>
    cases l2 with
    | nil => simp at hl
    | cons j l2 =>
      rw [addBits_cons, addBits_cons]
      apply ih
      · simpa using hl
      · rw [addToBuffer_counter, addToBuffer_counter, hc]
      · rw [addToBuffer_index, addToBuffer_index, hc, hi]

theorem emittedBits_length_perm (h : ℚ) (l1 l2 : List Particle) (hp : l1.Perm l2) :
    (emittedBits h l1).length = (emittedBits h l2).length := by
  unfold emittedBits
  rw [List.length_map, List.length_map]
  exact (hp.filter _).length_eq

theorem addBits_frame (ws : WorldSpace) (bits : List Int) :
    (addBits ws bits).rows = ws.rows ∧ (addBits ws bits).cols = ws.cols ∧
      (addBits ws bits).width = ws.width ∧ (addBits ws bits).height = ws.height ∧
      (addBits ws bits).renderData = ws.renderData := by
  induction bits using List.reverseRecOn with
  | nil => exact ⟨rfl, rfl, rfl, rfl, rfl⟩
  | append_singleton l i ih =>
    rw [addBits_append, addToBuffer_rows, addToBuffer_cols, addToBuffer_width,
      addToBuffer_height, addToBuffer_renderData]
    exact ih

theorem emittedBits_pairA :
    emittedBits (WorldSpace.new 15 33 (fun _ => 0)).height pairA.particles = [0, 1] := by
  norm_num [emittedBits, pairA, ParticleSystem.applyForce, ParticleSystem.addParticle,
    ParticleSystem.new, Particle.new, Particle.applyForce, WorldSpace.new, List.filter_cons]
  decide

theorem emittedBits_pairB :
    emittedBits (WorldSpace.new 15 33 (fun _ => 0)).height pairB.particles = [1, 0] := by
  norm_num [emittedBits, pairB, ParticleSystem.applyForce, ParticleSystem.addParticle,
    ParticleSystem.new, Particle.new, Particle.applyForce, WorldSpace.new, List.filter_cons]
  decide

theorem emittedBits_septetA :
    emittedBits (WorldSpace.new 15 33 (fun _ => 0)).height septetA.particles
      = [1, 0, 0, 0, 0, 0, 0] := by
  norm_num [emittedBits, septetA, ParticleSystem.applyForce, ParticleSystem.addParticle,
    ParticleSystem.addParticles, addParticlesLoop,
    ParticleSystem.new, Particle.new, Particle.applyForce, WorldSpace.new, List.filter_cons]
  decide

theorem emittedBits_septetB :
    emittedBits (WorldSpace.new 15 33 (fun _ => 0)).height septetB.particles
      = [0, 1, 0, 0, 0, 0, 0] := by
  norm_num [emittedBits, septetB, ParticleSystem.applyForce, ParticleSystem.addParticle,
    ParticleSystem.addParticles, addParticlesLoop,
    ParticleSystem.new, Particle.new, Particle.applyForce, WorldSpace.new, List.filter_cons]
  decide

/-- Counterexample to C9 as stated.  Two particles that bounce off the floor in
the same pass, with tags 1 and 2: iterated in this order the accumulator ends as
`01`, in the other order as `10`.  Seven such particles, one of them with tag 2:
with the tag-2 particle first the decoded character is `@` (64), with it second the
decoded character is a space (32). -/
theorem updateParticles_order_counterexample :
    pairB.particles.Perm pairA.particles ∧
    (pairA.updateParticles (WorldSpace.new 15 33 (fun _ => 0))).1.buffer = 1 ∧
    (pairB.updateParticles (WorldSpace.new 15 33 (fun _ => 0))).1.buffer = 2 ∧
    septetB.particles.Perm septetA.particles ∧
    (septetA.updateParticles (WorldSpace.new 15 33 (fun _ => 0))).1.charBuffer 0 = 64 ∧
    (septetB.updateParticles (WorldSpace.new 15 33 (fun _ => 0))).1.charBuffer 0 = 32 := by
  refine ⟨?_, ?_, ?_, ?_, ?_, ?_⟩
  · exact List.Perm.swap _ _ _
  · simp only [ParticleSystem.updateParticles, updateLoop_ws, emittedBits_pairA]; decide
  · simp only [ParticleSystem.updateParticles, updateLoop_ws, emittedBits_pairB]; decide
  · exact List.Perm.swap _ _ _
  · simp only [ParticleSystem.updateParticles, updateLoop_ws, emittedBits_septetA]; decide
  · simp only [ParticleSystem.updateParticles, updateLoop_ws, emittedBits_septetB]; decide

/-- C9, amended.  For every permutation `m` of the particle sequence `l` of a
system, `updateParticles` gives each particle the state its own `update` gives it
(so the resulting sequence is the same permutation of the original result), and
the same `buffer_counter`, write cursor, dimensions and grid; the contents of
`buffer` and of the decoded message follow the iteration order. -/
theorem updateParticles_permutation (ws : WorldSpace) (l m : List Particle)
    (hp : m.Perm l) :
    ((ParticleSystem.mk l).updateParticles ws).2.particles
      = l.map (fun p => (p.update ws).2) ∧
    ((ParticleSystem.mk m).updateParticles ws).2.particles
      = m.map (fun p => (p.update ws).2) ∧
    ((ParticleSystem.mk m).updateParticles ws).2.particles.Perm
      ((ParticleSystem.mk l).updateParticles ws).2.particles ∧
    ((ParticleSystem.mk m).updateParticles ws).1.buffer_counter
      = ((ParticleSystem.mk l).updateParticles ws).1.buffer_counter ∧
    ((ParticleSystem.mk m).updateParticles ws).1.charBuffer_index
      = ((ParticleSystem.mk l).updateParticles ws).1.charBuffer_index ∧
    ((ParticleSystem.mk m).updateParticles ws).1.width
      = ((ParticleSystem.mk l).updateParticles ws).1.width ∧
    ((ParticleSystem.mk m).updateParticles ws).1.height
      = ((ParticleSystem.mk l).updateParticles ws).1.height ∧
    ((ParticleSystem.mk m).updateParticles ws).1.renderData
      = ((ParticleSystem.mk l).updateParticles ws).1.renderData := by
  have hc := addBits_counter_index (emittedBits ws.height m) (emittedBits ws.height l) ws ws
    (emittedBits_length_perm ws.height m l hp) rfl rfl
  have f1 := addBits_frame ws (emittedBits ws.height m)
  have f2 := addBits_frame ws (emittedBits ws.height l)
  simp only [ParticleSystem.updateParticles, updateLoop_particles, updateLoop_ws]
  refine ⟨trivial, trivial, hp.map _, hc.1, hc.2, ?_, ?_, ?_⟩
  · rw [f1.2.2.1, f2.2.2.1]
  · rw [f1.2.2.2.1, f2.2.2.2.1]
  · rw [f1.2.2.2.2, f2.2.2.2.2]

/-- Witness of the amended C9: the two orders of the pair of floor bouncers. -/
theorem updateParticles_permutation_witness :
    (pairB.updateParticles (WorldSpace.new 15 33 (fun _ => 0))).1.buffer_counter
        = (pairA.updateParticles (WorldSpace.new 15 33 (fun _ => 0))).1.buffer_counter ∧
      (pairB.updateParticles (WorldSpace.new 15 33 (fun _ => 0))).1.charBuffer_index
        = (pairA.updateParticles (WorldSpace.new 15 33 (fun _ => 0))).1.charBuffer_index :=
  have h := updateParticles_permutation (WorldSpace.new 15 33 (fun _ => 0))
    pairA.particles pairB.particles (List.Perm.swap _ _ _)
  ⟨h.2.2.2.1, h.2.2.2.2.1⟩

/-! ## Rasterisation -/

theorem toInt_of_nonneg (q : ℚ) (h0 : 0 ≤ q) (h1 : q < 2147483648) : toInt q = some ⌊q⌋ := by
  unfold toInt
  have hn : 0 ≤ q.num := Rat.num_nonneg.mpr h0
  have ht : Int.tdiv q.num q.den = ⌊q⌋ := by
    rw [Rat.floor_def, Int.tdiv_eq_ediv hn (Int.natCast_nonneg _)]
  have hf0 : 0 ≤ ⌊q⌋ := Int.floor_nonneg.mpr h0
  have hf1 : ⌊q⌋ < 2147483648 := Int.floor_lt.mpr (by exact_mod_cast h1)
  simp only [ht]
  rw [if_pos ⟨by omega, by omega⟩]

theorem renderParticle_rows (ws ws1 : WorldSpace) (p : Particle)
    (h : ws.renderParticle p = some ws1) : ws1.rows = ws.rows ∧ ws1.cols = ws.cols := by
  unfold WorldSpace.renderParticle at h
  split at h
  · simp only at h
    split_ifs at h <;> (cases h; exact ⟨rfl, rfl⟩)
  · cases h

theorem renderParticles_rows (l : List Particle) (ws ws1 : WorldSpace)
    (h : ws.renderParticles l = some ws1) : ws1.rows = ws.rows ∧ ws1.cols = ws.cols := by
  induction l generalizing ws with
  | nil => cases h; exact ⟨rfl, rfl⟩
  | cons p rest ih =>
    simp only [WorldSpace.renderParticles] at h
    split at h
    · rename_i w hw
      have a := renderParticle_rows ws w p hw
      have b := ih w h
      exact ⟨b.1.trans a.1, b.2.trans a.2⟩
    · cases h

theorem getRenderData_rows (l : List ParticleSystem) (ws ws1 : WorldSpace)
    (h : ws.getRenderData l = some ws1) : ws1.rows = ws.rows ∧ ws1.cols = ws.cols := by
  induction l generalizing ws with
  | nil => cases h; exact ⟨rfl, rfl⟩
  | cons ps rest ih =>
    simp only [WorldSpace.getRenderData] at h
    split at h
    · rename_i w hw
      have a := renderParticles_rows _ ws w hw
      have b := ih w h
      exact ⟨b.1.trans a.1, b.2.trans a.2⟩
    · cases h

theorem renderParticles_append (l : List Particle) (ws : WorldSpace) (p : Particle) :
    ws.renderParticles (l ++ [p]) = (ws.renderParticles l).bind (fun w => w.renderParticle p) := by
  induction l generalizing ws with
  | nil =>
    simp only [List.nil_append, WorldSpace.renderParticles, Option.some_bind]
    cases ws.renderParticle p <;> rfl
  | cons q rest ih =>
    simp only [List.cons_append, WorldSpace.renderParticles]
    cases ws.renderParticle q with
    | none => rfl
    | some w => exact ih w

theorem getRenderData_append_particle (pre : List ParticleSystem) (l : List Particle)
    (ws : WorldSpace) (p : Particle) :
    ws.getRenderData (pre ++ [ParticleSystem.mk (l ++ [p])])
      = (ws.getRenderData (pre ++ [ParticleSystem.mk l])).bind (fun w => w.renderParticle p) := by
  induction pre generalizing ws with
  | nil =>
    simp only [List.nil_append, WorldSpace.getRenderData, renderParticles_append]
    cases ws.renderParticles l with
    | none => rfl
    | some w =>
      simp only [Option.some_bind]
      cases w.renderParticle p <;> rfl
  | cons s rest ih =>
    simp only [List.cons_append, WorldSpace.getRenderData]
    cases ws.renderParticles s.particles with
    | none => rfl
    | some w => exact ih w

/-- The store made for one particle at a non-negative position whose cell
indices are representable. -/
theorem renderParticle_cell (ws : WorldSpace) (p : Particle) (hr : 0 < ws.rows)
    (hc : 0 < ws.cols) (hx : 0 ≤ p.x) (hx2 : p.x < 2147483648) (hy : 0 ≤ p.y)
    (hy2 : p.y / 2.222 < 2147483648) :
    0 ≤ min ⌊p.y / 2.222⌋ (ws.rows - 1) ∧ min ⌊p.y / 2.222⌋ (ws.rows - 1) ≤ ws.rows - 1 ∧
    0 ≤ min ⌊p.x⌋ (ws.cols - 1) ∧ min ⌊p.x⌋ (ws.cols - 1) ≤ ws.cols - 1 ∧
    ws.renderParticle p = some { ws with
      renderData := fun i j =>
        if i = min ⌊p.y / 2.222⌋ (ws.rows - 1) ∧ j = min ⌊p.x⌋ (ws.cols - 1) then p.value
        else ws.renderData i j } := by
  have hy0 : 0 ≤ p.y / 2.222 := div_nonneg hy (by norm_num)
  have fx : 0 ≤ ⌊p.x⌋ := Int.floor_nonneg.mpr hx
  have fy : 0 ≤ ⌊p.y / 2.222⌋ := Int.floor_nonneg.mpr hy0
  refine ⟨le_min fy (by omega), min_le_right _ _, le_min fx (by omega), min_le_right _ _, ?_⟩
  unfold WorldSpace.renderParticle
  rw [toInt_of_nonneg p.x hx hx2, toInt_of_nonneg _ hy0 hy2]
  have ey : (if ⌊p.y / 2.222⌋ > ws.rows - 1 then ws.rows - 1 else ⌊p.y / 2.222⌋)
      = min ⌊p.y / 2.222⌋ (ws.rows - 1) := by
    rw [min_def]; split_ifs <;> omega
  have ex : (if ⌊p.x⌋ > ws.cols - 1 then ws.cols - 1 else ⌊p.x⌋)
      = min ⌊p.x⌋ (ws.cols - 1) := by
    rw [min_def]; split_ifs <;> omega
  simp only [ey, ex]
  rw [if_pos]
  refine ⟨le_min fy (by omega), ?_, le_min fx (by omega), ?_⟩
  · have := min_le_right ⌊p.y / 2.222⌋ (ws.rows - 1); omega
  · have := min_le_right ⌊p.x⌋ (ws.cols - 1); omega

theorem toInt_neg_five : toInt (-5) = some (-5) := by
  simp [toInt]

theorem toInt_two_pow_31 : toInt 2147483648 = none := by
  simp [toInt]

theorem toInt_row_of_one : toInt ((2.222 : ℚ)⁻¹) = some 0 := by
  rw [toInt_of_nonneg _ (by norm_num) (by norm_num)]
  norm_num

theorem getRenderData_negative :
    ((WorldSpace.new 15 33 (fun _ => 0)).getRenderData
      [ParticleSystem.new.addParticle (-5) 1 2]).isSome = false := by
  simp [WorldSpace.getRenderData, WorldSpace.renderParticles, WorldSpace.renderParticle,
    ParticleSystem.addParticle, ParticleSystem.new, Particle.new, toInt_neg_five,
    toInt_row_of_one, WorldSpace.new]

theorem getRenderData_unrepresentable :
    ((WorldSpace.new 15 33 (fun _ => 0)).getRenderData
      [ParticleSystem.new.addParticle 2147483648 1 2]).isSome = false := by
  simp [WorldSpace.getRenderData, WorldSpace.renderParticles, WorldSpace.renderParticle,
    ParticleSystem.addParticle, ParticleSystem.new, Particle.new, toInt_two_pow_31]

/-- Counterexample to C6 as stated.  For a particle at `(-5, 1)` in a 15 x 33
grid the column `getRenderData` computes is `(int)(-5.0) = -5`, which the only
clamp, `x > cols - 1`, leaves alone: the store is outside the grid and the call has
no defined result, whereas the claim puts the value in column `0`.  For a
particle at `x = 2147483648` the conversion to `int` itself is undefined. -/
theorem rasterization_counterexample :
    toInt (-5) = some (-5) ∧ ¬ ((-5 : Int) > 33 - 1) ∧
    max 0 (min ⌊(-5 : ℚ)⌋ ((33 : Int) - 1)) = 0 ∧
    ((WorldSpace.new 15 33 (fun _ => 0)).getRenderData
      [ParticleSystem.new.addParticle (-5) 1 2]).isSome = false ∧
    toInt 2147483648 = none ∧
    ((WorldSpace.new 15 33 (fun _ => 0)).getRenderData
      [ParticleSystem.new.addParticle 2147483648 1 2]).isSome = false :=
  ⟨toInt_neg_five, by decide, by norm_num, getRenderData_negative, toInt_two_pow_31,
    getRenderData_unrepresentable⟩

theorem getRenderData_single (ws : WorldSpace) (p : Particle) :
    ws.getRenderData [ParticleSystem.mk [p]] = ws.renderParticle p := by
  simp only [WorldSpace.getRenderData, WorldSpace.renderParticles]
  cases ws.renderParticle p <;> rfl

theorem renderParticle_example (uninit : Nat → Int) (v : Int) :
    (WorldSpace.new 15 33 uninit).renderParticle (Particle.new 5.0 11.11 v) =
      some { WorldSpace.new 15 33 uninit with
        renderData := fun i j => if i = 5 ∧ j = 5 then v else 0 } := by
  have key := renderParticle_cell (WorldSpace.new 15 33 uninit) (Particle.new 5.0 11.11 v)
    (by simp [WorldSpace.new]) (by simp [WorldSpace.new]) (by norm_num [Particle.new])
    (by norm_num [Particle.new]) (by norm_num [Particle.new]) (by norm_num [Particle.new])
  have fy : ⌊(Particle.new 5.0 11.11 v).y / 2.222⌋ = 5 := by norm_num [Particle.new]
  have fx : ⌊(Particle.new 5.0 11.11 v).x⌋ = 5 := by norm_num [Particle.new]
  rw [fy, fx] at key
  rw [key.2.2.2.2]
  simp [WorldSpace.new, Particle.new]

/-- C6, amended.  In a grid with `rows > 0` and `cols > 0`, for every registered
particle at a position with `0 ≤ x`, `0 ≤ y` whose integer parts fit an `int`
(every in-bounds position is one), the iteration of `getRenderData` that handles
the particle, reached with every earlier store inside the grid, stores its
`value` in the cell with `col = floor(x)` and
`row = floor(y / 2.222)`, clamped into `[0, cols - 1]` and `[0, rows - 1]`, and
changes no other cell; in a 15 x 33 grid a particle at `(5.0, 11.11)` is written
to row 5, column 5. -/
theorem rasterization_mapping (ws ws1 : WorldSpace) (pre : List ParticleSystem)
    (l : List Particle) (p : Particle) (hr : 0 < ws.rows) (hc : 0 < ws.cols)
    (hx : 0 ≤ p.x) (hx2 : p.x < 2147483648) (hy : 0 ≤ p.y) (hy2 : p.y / 2.222 < 2147483648)
    (h1 : ws.getRenderData (pre ++ [ParticleSystem.mk l]) = some ws1) :
    (∃ ws2, ws.getRenderData (pre ++ [ParticleSystem.mk (l ++ [p])]) = some ws2 ∧
      ws2.renderData (max 0 (min ⌊p.y / 2.222⌋ (ws.rows - 1)))
        (max 0 (min ⌊p.x⌋ (ws.cols - 1))) = p.value ∧
      ∀ i j, ¬ (i = max 0 (min ⌊p.y / 2.222⌋ (ws.rows - 1)) ∧
          j = max 0 (min ⌊p.x⌋ (ws.cols - 1))) →
        ws2.renderData i j = ws1.renderData i j) ∧
    (∀ (uninit : Nat → Int) (v : Int), ∃ ws3,
      (WorldSpace.new 15 33 uninit).getRenderData
        [ParticleSystem.new.addParticle 5.0 11.11 v] = some ws3 ∧
      ws3.renderData 5 5 = v) := by
  constructor
  · obtain ⟨e1, e2⟩ := getRenderData_rows _ ws ws1 h1
    obtain ⟨a, -, b, -, hrp⟩ := renderParticle_cell ws1 p (e1 ▸ hr) (e2 ▸ hc) hx hx2 hy hy2
    simp only [e1, e2] at hrp a b
    rw [getRenderData_append_particle, h1, Option.some_bind, hrp, max_eq_right a, max_eq_right b]
    exact ⟨_, rfl, by simp, fun i j hij => by simp only [if_neg hij]⟩
  · intro uninit v
    refine ⟨_, (getRenderData_single _ _).trans (renderParticle_example uninit v), ?_⟩
    simp

/-- Witness of the amended C6: the first particle of the scenario, at `(1, 1)`,
rendered as the only particle of the only registered system. -/
theorem rasterization_mapping_witness :
    ∃ ws2, (WorldSpace.new 15 33 (fun _ => 0)).getRenderData
        ([] ++ [ParticleSystem.mk ([] ++ [Particle.new 1 1 2])]) = some ws2 ∧
      ws2.renderData (max 0 (min ⌊(Particle.new 1 1 2).y / 2.222⌋
          ((WorldSpace.new 15 33 (fun _ => 0)).rows - 1)))
        (max 0 (min ⌊(Particle.new 1 1 2).x⌋
          ((WorldSpace.new 15 33 (fun _ => 0)).cols - 1))) = (Particle.new 1 1 2).value :=
  have h := (rasterization_mapping (WorldSpace.new 15 33 (fun _ => 0))
    (WorldSpace.new 15 33 (fun _ => 0)) [] [] (Particle.new 1 1 2) (by decide) (by decide)
    (by norm_num [Particle.new]) (by norm_num [Particle.new]) (by norm_num [Particle.new])
    (by norm_num [Particle.new]) rfl).1
  h.imp fun _ hw => ⟨hw.1, hw.2.1⟩

/-! ## Adding and looking up particles -/

theorem addParticlesLoop_eq_iterate (n : Nat) (ps : ParticleSystem) (x y : ℚ) (v : Int) :
    addParticlesLoop n ps x y v = (fun s => ParticleSystem.addParticle s x y v)^[n] ps := by
  induction n generalizing ps with
  | zero => rfl
  | succ n ih => simp only [addParticlesLoop, ih, Function.iterate_succ, Function.comp_apply]

/-- C12. `addParticles(count, x, y, value)` is `count` successive
`addParticle(x, y, value)` calls (none when `count ≤ 0`): it appends exactly
`max(count, 0)` particles to the end of the owned sequence, keeps every particle
already owned unchanged and in place, and each appended particle has position
`(x, y)`, tag `value`, zero velocity and zero pending acceleration. -/
theorem addParticles_appends (ps : ParticleSystem) (count : Int) (x y : ℚ) (value : Int) :
    ps.addParticles count x y value
      = (fun s => ParticleSystem.addParticle s x y value)^[count.toNat] ps ∧
    (ps.addParticles count x y value).particles
      = ps.particles ++ List.replicate count.toNat
          { x := x, y := y, vx := 0, vy := 0, ax := 0, ay := 0, value := value } ∧
    ((ps.addParticles count x y value).particles.length : Int)
      = ps.particles.length + max count 0 ∧
    (ps.addParticles count x y value).particles.take ps.particles.length = ps.particles := by
  have hp := addParticlesLoop_particles count.toNat ps x y value
  refine ⟨addParticlesLoop_eq_iterate _ _ _ _ _, hp, ?_, ?_⟩
  · unfold ParticleSystem.addParticles
    rw [hp, List.length_append, List.length_replicate]
    push_cast
    rw [Int.toNat_eq_max]
  · unfold ParticleSystem.addParticles
    rw [hp, List.take_left]

theorem toSizeT_of_nonneg (pos : Int) (h0 : 0 ≤ pos) (h1 : pos ≤ 2147483647) :
    toSizeT pos = pos := by
  unfold toSizeT; omega

/-- C13. For an `int` position, `getParticleAt(pos)` returns `NULL` exactly when
`pos < 0` or `pos ≥` the number of owned particles; otherwise it returns the
particle at index `pos` of the sequence; it always returns and leaves the system
as it was. -/
theorem getParticleAt_spec (ps : ParticleSystem) (pos : Int)
    (hlo : -2147483648 ≤ pos) (hhi : pos ≤ 2147483647) :
    ((ps.getParticleAt pos).2 = none ↔ pos < 0 ∨ pos ≥ (ps.particles.length : Int)) ∧
    (¬ (pos < 0 ∨ pos ≥ (ps.particles.length : Int)) →
      (ps.getParticleAt pos).2 = ps.particles.get? pos.toNat ∧
      ∃ p, (ps.getParticleAt pos).2 = some p) ∧
    (ps.getParticleAt pos).1 = ps := by
  unfold ParticleSystem.getParticleAt
  by_cases hneg : pos < 0
  · simp [hneg]
  · have hs := toSizeT_of_nonneg pos (by omega) hhi
    rw [hs]
    by_cases hge : pos ≥ (ps.particles.length : Int)
    · simp [hge]
    · have hlt : pos.toNat < ps.particles.length := by omega
      simp only [hge, hneg, or_self, if_false, not_false_eq_true, true_implies, and_true]
      refine ⟨?_, ?_⟩
      · simp only [iff_false]
        rw [List.get?_eq_get hlt]; simp
      · exact ⟨trivial, _, List.get?_eq_get hlt⟩

/-- Witness of C13: index 2 of a system of three particles. -/
theorem getParticleAt_spec_witness :
    ((ParticleSystem.new.addParticles 3 1 1 2).getParticleAt 2).2
        = (ParticleSystem.new.addParticles 3 1 1 2).particles.get? (2 : Int).toNat ∧
      ((ParticleSystem.new.addParticles 3 1 1 2).getParticleAt 2).1
        = ParticleSystem.new.addParticles 3 1 1 2 :=
  have h := getParticleAt_spec (ParticleSystem.new.addParticles 3 1 1 2) 2 (by decide) (by decide)
  ⟨(h.2.1 (by decide)).1, h.2.2⟩

/-! ## Position after an integration step -/

theorem clamp_eq (t b : ℚ) :
    (if (if t > b then b else t) < 0 then 0 else (if t > b then b else t)) = max 0 (min t b) := by
  rw [max_def, min_def]; split_ifs <;> linarith

/-- The two final comparisons of an axis clamp the position into `[0, b]`. -/
theorem clampX_eq (q : Particle) (w : ℚ) :
    (if (if q.x > w then { q with x := w } else q).x < 0
      then { (if q.x > w then { q with x := w } else q) with x := 0 }
      else (if q.x > w then { q with x := w } else q)).x = max 0 (min q.x w) := by
  rw [← clamp_eq]
  split_ifs <;> simp_all

theorem clampY_eq (q : Particle) (h : ℚ) :
    (if (if q.y > h then { q with y := h } else q).y < 0
      then { (if q.y > h then { q with y := h } else q) with y := 0 }
      else (if q.y > h then { q with y := h } else q)).y = max 0 (min q.y h) := by
  rw [← clamp_eq]
  split_ifs <;> simp_all

theorem updateX_x (p : Particle) (w : ℚ) :
    (p.updateX w).x =
      max 0 (min (if p.x + (p.vx + p.ax) > w then w + ((w - p.x) - (p.vx + p.ax))
        else if p.x + (p.vx + p.ax) < 0 then -p.x - (p.vx + p.ax)
        else p.x + (p.vx + p.ax)) w) := by
  unfold Particle.updateX
  simp only
  rw [clampX_eq]
  split_ifs <;> rfl

theorem updateY_y (p : Particle) (ws : WorldSpace) (h : ℚ) :
    (p.updateY ws h).2.y =
      max 0 (min (if p.y + (p.vy + p.ay) > h
          then h + ((h - p.y) - (p.vy + p.ay)) + -(p.vy + p.ay) * 0.85
        else if p.y + (p.vy + p.ay) < 0 then -p.y - (p.vy + p.ay) + -(p.vy + p.ay) * 0.85
        else p.y + (p.vy + p.ay) + (p.vy + p.ay)) h) := by
  rw [← clamp_eq]
  by_cases h1 : p.y + (p.vy + p.ay) > h
  · simp only [Particle.updateY, h1, if_true, COLLISION_DAMPENING]
    split_ifs <;> simp_all
  · by_cases h2 : p.y + (p.vy + p.ay) < 0
    · simp only [Particle.updateY, h1, h2, if_true, if_false, COLLISION_DAMPENING]
      split_ifs <;> simp_all
    · simp only [Particle.updateY, h1, h2, if_false]
      split_ifs <;> simp_all

theorem update_x (p : Particle) (ws : WorldSpace) :
    (p.update ws).2.x =
      max 0 (min (if p.x + (p.vx + p.ax) > ws.width
          then ws.width + ((ws.width - p.x) - (p.vx + p.ax))
        else if p.x + (p.vx + p.ax) < 0 then -p.x - (p.vx + p.ax)
        else p.x + (p.vx + p.ax)) ws.width) := by
  unfold Particle.update
  rw [updateY_x, updateX_x]

theorem update_y (p : Particle) (ws : WorldSpace) :
    (p.update ws).2.y =
      max 0 (min (if p.y + (p.vy + p.ay) > ws.height
          then ws.height + ((ws.height - p.y) - (p.vy + p.ay)) + -(p.vy + p.ay) * 0.85
        else if p.y + (p.vy + p.ay) < 0 then -p.y - (p.vy + p.ay) + -(p.vy + p.ay) * 0.85
        else p.y + (p.vy + p.ay) + (p.vy + p.ay)) ws.height) := by
  unfold Particle.update
  rw [updateY_y, updateX_y, updateX_vy, updateX_ay]

/-- C14, evaluation at the failing input.  In `WorldSpace(15, 33)` a particle
added at `(1, 33)` and pushed by the force `(0, 1)` takes the floor-bounce branch
of the y axis: the reflection formula `B + (B - pos) - vel` gives `32.66`, and
`update` leaves `y = 31.81`, because the statement `y += vy` after the branches
adds the damped velocity `-0.85` once more.  A particle at `(32.5, 0.5)` with
velocity `(1, -1)` takes the ceiling-bounce branch: the formula `-pos - vel`
gives `0.5`, and `update` leaves `y = 1.35`; on its x axis, which takes the
upper reflection branch, `update` leaves the value of the formula, `32.5`. -/
theorem reflection_position_evaluation :
    ((Particle.new 1 33 2).applyForce 0 1).y
        + (((Particle.new 1 33 2).applyForce 0 1).vy + ((Particle.new 1 33 2).applyForce 0 1).ay)
      > (WorldSpace.new 15 33 (fun _ => 0)).height ∧
    max 0 (min ((WorldSpace.new 15 33 (fun _ => 0)).height
        + ((WorldSpace.new 15 33 (fun _ => 0)).height - 33) - 1)
      (WorldSpace.new 15 33 (fun _ => 0)).height) = (32.66 : ℚ) ∧
    (((Particle.new 1 33 2).applyForce 0 1).update (WorldSpace.new 15 33 (fun _ => 0))).2.y
      = 31.81 ∧
    max 0 (min (-(0.5 : ℚ) - (-1)) (WorldSpace.new 15 33 (fun _ => 0)).height) = 0.5 ∧
    (({ x := 32.5, y := 0.5, vx := 1, vy := -1, ax := 0, ay := 0, value := 2 } : Particle).update
      (WorldSpace.new 15 33 (fun _ => 0))).2.y = 1.35 ∧
    (({ x := 32.5, y := 0.5, vx := 1, vy := -1, ax := 0, ay := 0, value := 2 } : Particle).update
      (WorldSpace.new 15 33 (fun _ => 0))).2.x
      = max 0 (min ((WorldSpace.new 15 33 (fun _ => 0)).width
          + ((WorldSpace.new 15 33 (fun _ => 0)).width - 32.5) - 1)
        (WorldSpace.new 15 33 (fun _ => 0)).width) := by
  refine ⟨?_, ?_, ?_, ?_, ?_, ?_⟩
  · norm_num [Particle.new, Particle.applyForce, WorldSpace.new]
  · norm_num [WorldSpace.new]
  · rw [update_y]; norm_num [Particle.new, Particle.applyForce, WorldSpace.new]
  · norm_num [WorldSpace.new]
  · rw [update_y]; norm_num [WorldSpace.new]
  · rw [update_x]; norm_num [WorldSpace.new]

theorem addBits_buffer_upto_six (ws : WorldSpace) (bits : List Int) (hb : ws.buffer = 0)
    (hc : ws.buffer_counter = 0) (hl : bits.length ≤ 6) :
    (addBits ws bits).buffer = bits.foldl (fun a b => 2 * a + b % 2) 0 ∧
      0 ≤ (addBits ws bits).buffer ∧ (addBits ws bits).buffer < 2 ^ bits.length := by
  induction bits using List.reverseRecOn with
  | nil => simp [addBits, hb]
  | append_singleton l i ih =>
    rw [List.length_append, List.length_singleton] at hl
    obtain ⟨h1, h2, h3⟩ := ih (by omega)
    have hcnt := (addBits_upto_six ws l hc (by omega)).1
    have hw : wrap32 ((addBits ws l).buffer_counter + 1) = (l.length : Int) + 1 := by
      rw [hcnt]; exact wrap32_eq_self _ (by omega) (by omega)
    have hn : ¬ (7 : Int) ≤ (l.length : Int) + 1 := by omega
    have hp : (2 : Int) ^ l.length ≤ 2 ^ 5 := pow_le_pow_right₀ (by norm_num) (by omega)
    have hw2 : wrap32 (2 * (addBits ws l).buffer) = 2 * (addBits ws l).buffer :=
      wrap32_eq_self _ (by omega) (by omega)
    have hi := Int.emod_two_eq i
    rw [addBits_append, addToBuffer_buffer, hw, if_neg hn, hw2, List.foldl_append, ← h1,
      List.length_append, List.length_singleton, pow_succ]
    refine ⟨rfl, by omega, by omega⟩

/-- C16. From a state with `buffer = 0`, `buffer_counter = 0` and cursor
`c < 127`, after `addToBuffer(b1), ..., addToBuffer(b7)` the character stored at
message index `c` has code `max(32, sum of (b_i & 1) * 2^(7 - i))`: the first bit
is the most significant of the seven and codes below 32 become a space. -/
theorem msb_first_decoding (ws : WorldSpace) (b1 b2 b3 b4 b5 b6 b7 : Int)
    (hb : ws.buffer = 0) (hc : ws.buffer_counter = 0) (hi : ws.charBuffer_index < 127) :
    (addBits ws [b1, b2, b3, b4, b5, b6, b7]).charBuffer ws.charBuffer_index
      = max 32 (Int.land b1 1 * 2 ^ 6 + Int.land b2 1 * 2 ^ 5 + Int.land b3 1 * 2 ^ 4
          + Int.land b4 1 * 2 ^ 3 + Int.land b5 1 * 2 ^ 2 + Int.land b6 1 * 2 ^ 1
          + Int.land b7 1 * 2 ^ 0) := by
  have h6 := addBits_upto_six ws [b1, b2, b3, b4, b5, b6] hc (by simp)
  have hbuf := addBits_buffer_upto_six ws [b1, b2, b3, b4, b5, b6] hb hc (by simp)
  have hsplit : [b1, b2, b3, b4, b5, b6, b7] = [b1, b2, b3, b4, b5, b6] ++ [b7] := rfl
  have hw : wrap32 ((addBits ws [b1, b2, b3, b4, b5, b6]).buffer_counter + 1) = 7 := by
    rw [h6.1]; simp only [List.length_cons, List.length_nil]; decide
  rw [hsplit, addBits_append, addToBuffer_charBuffer, hw, h6.2.1, h6.2.2,
    if_pos ⟨le_refl _, hi⟩, Function.update_same, hbuf.1]
  simp only [List.foldl_cons, List.foldl_nil, land_one_eq]
  have e1 := Int.emod_two_eq b1
  have e2 := Int.emod_two_eq b2
  have e3 := Int.emod_two_eq b3
  have e4 := Int.emod_two_eq b4
  have e5 := Int.emod_two_eq b5
  have e6 := Int.emod_two_eq b6
  have e7 := Int.emod_two_eq b7
  unfold wrap32 toChar
  rw [max_def]
  split_ifs <;> omega

/-- Witness of C16: the bits `1000001` decode to `A` (65). -/
theorem msb_first_decoding_witness :
    (addBits (WorldSpace.new 15 33 (fun _ => 0)) [1, 0, 0, 0, 0, 0, 1]).charBuffer
        (WorldSpace.new 15 33 (fun _ => 0)).charBuffer_index = 65 :=
  (msb_first_decoding (WorldSpace.new 15 33 (fun _ => 0)) 1 0 0 0 0 0 1 rfl rfl
    (by decide)).trans (by decide)

theorem message_prefix (ws ws1 : WorldSpace) (hle : ws.charBuffer_index ≤ ws1.charBuffer_index)
    (hsame : ∀ k < ws.charBuffer_index, ws1.charBuffer k = ws.charBuffer k) :
    ws.message <+: ws1.message := by
  obtain ⟨d, hd⟩ := Nat.exists_eq_add_of_le hle
  unfold WorldSpace.message
  rw [hd, List.range_add, List.map_append]
  have : (List.range ws.charBuffer_index).map ws1.charBuffer
      = (List.range ws.charBuffer_index).map ws.charBuffer := by
    apply List.map_congr_left
    intro k hk
    exact hsame k (List.mem_range.mp hk)
  rw [this]
  exact List.prefix_append _ _

theorem addToBuffer_append_only (ws : WorldSpace) (i : Int) :
    ((ws.addToBuffer i).charBuffer_index = ws.charBuffer_index ∨
      (ws.addToBuffer i).charBuffer_index = ws.charBuffer_index + 1) ∧
    ∀ k < ws.charBuffer_index, (ws.addToBuffer i).charBuffer k = ws.charBuffer k := by
  rw [addToBuffer_index, addToBuffer_charBuffer]
  by_cases h : 7 ≤ wrap32 (ws.buffer_counter + 1) ∧ ws.charBuffer_index < 127
  · rw [if_pos h, if_pos h]
    exact ⟨Or.inr rfl, fun k hk => Function.update_noteq (by omega) _ _⟩
  · rw [if_neg h, if_neg h]
    exact ⟨Or.inl rfl, fun k _ => rfl⟩

theorem addBits_append_only (ws : WorldSpace) (bits : List Int) :
    ws.charBuffer_index ≤ (addBits ws bits).charBuffer_index ∧
    ∀ k < ws.charBuffer_index, (addBits ws bits).charBuffer k = ws.charBuffer k := by
  induction bits using List.reverseRecOn with
  | nil => exact ⟨le_refl _, fun k _ => rfl⟩
  | append_singleton l i ih =>
    rw [addBits_append]
    obtain ⟨h1, h2⟩ := addToBuffer_append_only (addBits ws l) i
    refine ⟨by omega, fun k hk => ?_⟩
    rw [h2 k (by omega), ih.2 k hk]

/-- C19. For every state and every `addToBuffer` call the write cursor after
the call is unchanged or exactly one larger and every character below the old
cursor is unchanged; hence after any sequence of calls the message before is a
prefix of the message after. -/
theorem message_append_only (ws : WorldSpace) (i : Int) (bits : List Int) :
    ((ws.addToBuffer i).charBuffer_index = ws.charBuffer_index ∨
      (ws.addToBuffer i).charBuffer_index = ws.charBuffer_index + 1) ∧
    (∀ k, k < ws.charBuffer_index → (ws.addToBuffer i).charBuffer k = ws.charBuffer k) ∧
    ws.message <+: (ws.addToBuffer i).message ∧
    ws.message <+: (addBits ws bits).message := by
  have h1 := addToBuffer_append_only ws i
  have h2 := addBits_append_only ws bits
  refine ⟨h1.1, h1.2, message_prefix _ _ ?_ h1.2, message_prefix _ _ h2.1 h2.2⟩
  rcases h1.1 with h | h <;> omega

/-! ## The grid after a rendering pass -/

/-- The loop body of `getRenderData` in terms of the cell it computes. -/
theorem renderParticle_eq (ws : WorldSpace) (p : Particle) :
    ws.renderParticle p =
      match ws.cellOf p with
      | some c =>
        if 0 ≤ c.1 ∧ c.1 < ws.rows ∧ 0 ≤ c.2 ∧ c.2 < ws.cols then
          some { ws with
            renderData := fun i j => if i = c.1 ∧ j = c.2 then p.value else ws.renderData i j }
        else none
      | none => none := by
  unfold WorldSpace.renderParticle WorldSpace.cellOf
  split <;> rfl

theorem cellOf_congr (ws ws1 : WorldSpace) (p : Particle) (hr : ws1.rows = ws.rows)
    (hc : ws1.cols = ws.cols) : ws1.cellOf p = ws.cellOf p := by
  unfold WorldSpace.cellOf
  rw [hr, hc]

theorem lastTag_congr (ws ws1 : WorldSpace) (i j : Int) (l : List Particle)
    (hr : ws1.rows = ws.rows) (hc : ws1.cols = ws.cols) :
    lastTag ws1 i j l = lastTag ws i j l := by
  induction l with
  | nil => rfl
  | cons p rest ih => simp only [lastTag, ih, cellOf_congr ws ws1 p hr hc]

theorem lastTag_eq_none (ws : WorldSpace) (i j : Int) (l : List Particle) :
    lastTag ws i j l = none ↔ ∀ q ∈ l, ws.cellOf q ≠ some (i, j) := by
  induction l with
  | nil => simp [lastTag]
  | cons p rest ih =>
    simp only [lastTag, List.mem_cons, forall_eq_or_imp]
    cases hrest : lastTag ws i j rest with
    | none =>
      rw [hrest] at ih
      by_cases hp : ws.cellOf p = some (i, j)
      · simp [hp]
      · simp only [hp, if_false, ne_eq, not_false_eq_true, true_and, true_iff]
        exact ih.mp rfl
    | some v =>
      rw [hrest] at ih
      constructor
      · intro h; cases h
      · rintro ⟨-, hall⟩
        exact absurd (ih.mpr hall) (by simp)

theorem lastTag_eq_some (ws : WorldSpace) (i j : Int) (l : List Particle) (v : Int)
    (h : lastTag ws i j l = some v) : ∃ p ∈ l, ws.cellOf p = some (i, j) ∧ p.value = v := by
  induction l with
  | nil => simp [lastTag] at h
  | cons p rest ih =>
    simp only [lastTag] at h
    cases hrest : lastTag ws i j rest with
    | some u =>
      rw [hrest] at h
      obtain ⟨q, hq, hc, hv⟩ := ih (by rw [hrest]; exact h)
      exact ⟨q, List.mem_cons_of_mem _ hq, hc, hv⟩
    | none =>
      rw [hrest] at h
      by_cases hp : ws.cellOf p = some (i, j)
      · simp only [hp, if_true, Option.some.injEq] at h
        exact ⟨p, List.mem_cons_self _ _, hp, h⟩
      · simp [hp] at h

theorem lastTag_append (ws : WorldSpace) (i j : Int) (l1 l2 : List Particle) :
    lastTag ws i j (l1 ++ l2) =
      match lastTag ws i j l2 with
      | some v => some v
      | none => lastTag ws i j l1 := by
  induction l1 with
  | nil => simp only [List.nil_append, lastTag]; cases lastTag ws i j l2 <;> rfl
  | cons p rest ih =>
    rw [List.cons_append]
    simp only [lastTag]
    rw [ih]
    cases lastTag ws i j l2 <;> rfl

/-- The last particle of the pass that has cell `(i, j)` determines the tag. -/
theorem lastTag_of_last (ws : WorldSpace) (i j : Int) (l1 l2 : List Particle) (p : Particle)
    (hp : ws.cellOf p = some (i, j)) (hl2 : ∀ q ∈ l2, ws.cellOf q ≠ some (i, j)) :
    lastTag ws i j (l1 ++ p :: l2) = some p.value := by
  have h2 : lastTag ws i j (p :: l2) = some p.value := by
    simp only [lastTag, (lastTag_eq_none ws i j l2).mpr hl2, hp, if_true]
  rw [lastTag_append, h2]

theorem renderParticle_some (ws ws1 : WorldSpace) (p : Particle)
    (h : ws.renderParticle p = some ws1) :
    ∃ c, ws.cellOf p = some c ∧ ws.InGrid c.1 c.2 ∧
      ws1 = { ws with
        renderData := fun i j => if i = c.1 ∧ j = c.2 then p.value else ws.renderData i j } := by
  rw [renderParticle_eq] at h
  cases hc : ws.cellOf p with
  | none => rw [hc] at h; cases h
  | some c =>
    rw [hc] at h
    simp only at h
    by_cases hin : 0 ≤ c.1 ∧ c.1 < ws.rows ∧ 0 ≤ c.2 ∧ c.2 < ws.cols
    · rw [if_pos hin] at h
      cases h
      exact ⟨c, rfl, hin, rfl⟩
    · rw [if_neg hin] at h; cases h

theorem renderParticle_of_cell (ws : WorldSpace) (p : Particle) (c : Int × Int)
    (hc : ws.cellOf p = some c) (hin : ws.InGrid c.1 c.2) :
    ws.renderParticle p = some { ws with
      renderData := fun i j => if i = c.1 ∧ j = c.2 then p.value else ws.renderData i j } := by
  rw [renderParticle_eq, hc]
  exact if_pos hin

/-- A pass over `l` that stays inside the grid changes only the grid, and leaves
in each cell the tag stored there last, or the old content. -/
theorem renderParticles_some (l : List Particle) (ws ws1 : WorldSpace)
    (h : ws.renderParticles l = some ws1) :
    ws1 = { ws with renderData := ws1.renderData } ∧
    (∀ i j, ws1.renderData i j = (lastTag ws i j l).getD (ws.renderData i j)) ∧
    (∀ p ∈ l, ∃ c, ws.cellOf p = some c ∧ ws.InGrid c.1 c.2) := by
  induction l generalizing ws with
  | nil => cases h; exact ⟨rfl, fun i j => rfl, by simp⟩
  | cons p rest ih =>
    simp only [WorldSpace.renderParticles] at h
    cases hp : ws.renderParticle p with
    | none => rw [hp] at h; cases h
    | some w =>
      rw [hp] at h
      obtain ⟨c, hc, hin, hw⟩ := renderParticle_some ws w p hp
      obtain ⟨f1, f2, f3⟩ := ih w h
      have hr : w.rows = ws.rows := by rw [hw]
      have hcl : w.cols = ws.cols := by rw [hw]
      refine ⟨?_, ?_, ?_⟩
      · rw [f1, hw]
      · intro i j
        rw [f2 i j, lastTag_congr ws w i j rest hr hcl]
        simp only [lastTag]
        cases lastTag ws i j rest with
        | some v => rfl
        | none =>
          simp only [Option.getD_none, hw, hc]
          by_cases hij : i = c.1 ∧ j = c.2
          · have : some c = some (i, j) := by rw [hij.1, hij.2]
            simp [hij, this]
          · have : ¬ some c = some (i, j) := by
              intro he; cases he; exact hij ⟨rfl, rfl⟩
            simp [hij, this]
      · intro q hq
        rcases List.mem_cons.mp hq with rfl | hq
        · exact ⟨c, hc, hin⟩
        · obtain ⟨d, hd, hdin⟩ := f3 q hq
          rw [cellOf_congr ws w q hr hcl] at hd
          exact ⟨d, hd, by unfold WorldSpace.InGrid at hdin ⊢; rwa [hr, hcl] at hdin⟩

theorem renderParticles_defined (l : List Particle) (ws : WorldSpace)
    (hall : ∀ p ∈ l, ∃ c, ws.cellOf p = some c ∧ ws.InGrid c.1 c.2) :
    ∃ ws1, ws.renderParticles l = some ws1 := by
  induction l generalizing ws with
  | nil => exact ⟨ws, rfl⟩
  | cons p rest ih =>
    obtain ⟨c, hc, hin⟩ := hall p (List.mem_cons_self _ _)
    simp only [WorldSpace.renderParticles, renderParticle_of_cell ws p c hc hin]
    apply ih
    intro q hq
    obtain ⟨d, hd, hdin⟩ := hall q (List.mem_cons_of_mem _ hq)
    exact ⟨d, (cellOf_congr ws _ q rfl rfl).trans hd, hdin⟩

theorem renderParticles_append_list (l1 l2 : List Particle) (ws : WorldSpace) :
    ws.renderParticles (l1 ++ l2) = (ws.renderParticles l1).bind (fun w => w.renderParticles l2) := by
  induction l1 generalizing ws with
  | nil => rfl
  | cons p rest ih =>
    rw [List.cons_append]
    simp only [WorldSpace.renderParticles]
    cases ws.renderParticle p with
    | none => rfl
    | some w => exact ih w

/-- The two nested loops of `getRenderData` are one pass over all registered
particles in iteration order. -/
theorem getRenderData_eq_renderParticles (systems : List ParticleSystem) (ws : WorldSpace) :
    ws.getRenderData systems = ws.renderParticles (allParticles systems) := by
  induction systems generalizing ws with
  | nil => rfl
  | cons ps rest ih =>
    simp only [WorldSpace.getRenderData, allParticles, renderParticles_append_list]
    cases ws.renderParticles ps.particles with
    | none => rfl
    | some w => exact ih w

theorem mem_allParticles (systems : List ParticleSystem) (p : Particle) :
    p ∈ allParticles systems ↔ ∃ ps ∈ systems, p ∈ ps.particles := by
  induction systems with
  | nil => simp [allParticles]
  | cons s rest ih => simp [allParticles, ih]

/-- A particle at a non-negative position whose integer parts fit an `int` has
a cell inside a grid with `rows > 0` and `cols > 0`. -/
theorem cellOf_inGrid (ws : WorldSpace) (p : Particle) (hr : 0 < ws.rows) (hc : 0 < ws.cols)
    (hx : 0 ≤ p.x) (hx2 : p.x < 2147483648) (hy : 0 ≤ p.y) (hy2 : p.y / 2.222 < 2147483648) :
    ws.cellOf p = some (min ⌊p.y / 2.222⌋ (ws.rows - 1), min ⌊p.x⌋ (ws.cols - 1)) ∧
      ws.InGrid (min ⌊p.y / 2.222⌋ (ws.rows - 1)) (min ⌊p.x⌋ (ws.cols - 1)) := by
  have hy0 : 0 ≤ p.y / 2.222 := div_nonneg hy (by norm_num)
  have fx : 0 ≤ ⌊p.x⌋ := Int.floor_nonneg.mpr hx
  have fy : 0 ≤ ⌊p.y / 2.222⌋ := Int.floor_nonneg.mpr hy0
  have ey : (if ⌊p.y / 2.222⌋ > ws.rows - 1 then ws.rows - 1 else ⌊p.y / 2.222⌋)
      = min ⌊p.y / 2.222⌋ (ws.rows - 1) := by
    rw [min_def]; split_ifs <;> omega
  have ex : (if ⌊p.x⌋ > ws.cols - 1 then ws.cols - 1 else ⌊p.x⌋)
      = min ⌊p.x⌋ (ws.cols - 1) := by
    rw [min_def]; split_ifs <;> omega
  constructor
  · unfold WorldSpace.cellOf
    rw [toInt_of_nonneg p.x hx hx2, toInt_of_nonneg _ hy0 hy2]
    simp only [ey, ex]
  · have a := min_le_right ⌊p.y / 2.222⌋ (ws.rows - 1)
    have b := min_le_right ⌊p.x⌋ (ws.cols - 1)
    exact ⟨le_min fy (by omega), by omega, le_min fx (by omega), by omega⟩

/-- The call `getRenderData` has a defined result when every registered particle
is at a non-negative position whose integer parts fit an `int`. -/
theorem getRenderData_defined (ws : WorldSpace) (systems : List ParticleSystem)
    (hr : 0 < ws.rows) (hc : 0 < ws.cols)
    (hall : ∀ p ∈ allParticles systems,
      0 ≤ p.x ∧ p.x < 2147483648 ∧ 0 ≤ p.y ∧ p.y / 2.222 < 2147483648) :
    ∃ ws1, ws.getRenderData systems = some ws1 := by
  rw [getRenderData_eq_renderParticles]
  apply renderParticles_defined
  intro p hp
  obtain ⟨h1, h2, h3, h4⟩ := hall p hp
  exact ⟨_, (cellOf_inGrid ws p hr hc h1 h2 h3 h4).1, (cellOf_inGrid ws p hr hc h1 h2 h3 h4).2⟩

theorem lastTag_decompose (ws : WorldSpace) (i j : Int) (l : List Particle) (v : Int)
    (h : lastTag ws i j l = some v) :
    ∃ l1 p l2, l = l1 ++ p :: l2 ∧ ws.cellOf p = some (i, j) ∧
      (∀ q ∈ l2, ws.cellOf q ≠ some (i, j)) ∧ p.value = v := by
  induction l with
  | nil => simp [lastTag] at h
  | cons p rest ih =>
    simp only [lastTag] at h
    cases hrest : lastTag ws i j rest with
    | some u =>
      rw [hrest] at h
      obtain ⟨l1, q, l2, hl, hq, hl2, hv⟩ := ih (by rw [hrest]; exact h)
      exact ⟨p :: l1, q, l2, by rw [hl, List.cons_append], hq, hl2, hv⟩
    | none =>
      rw [hrest] at h
      by_cases hp : ws.cellOf p = some (i, j)
      · simp only [hp, if_true, Option.some.injEq] at h
        exact ⟨[], p, rest, rfl, hp, (lastTag_eq_none ws i j rest).mp hrest, h⟩
      · simp [hp] at h

theorem trunc_eq_floor (q : ℚ) (h0 : 0 ≤ q) : Int.tdiv q.num q.den = ⌊q⌋ := by
  rw [Rat.floor_def, Int.tdiv_eq_ediv (Rat.num_nonneg.mpr h0) (Int.natCast_nonneg _)]

/-- C17. When `getRenderData` returns, every cell that some registered particle
has as its cell holds the value tag of the last such particle in iteration order
(systems in registration order, particles in insertion order), and every cell that
no registered particle has keeps the content it had before the call; the call
returns whenever every registered particle is at a non-negative position whose
integer parts fit an `int` and the grid has `rows > 0`, `cols > 0`. -/
theorem last_writer_wins (ws ws1 : WorldSpace) (systems : List ParticleSystem)
    (h : ws.getRenderData systems = some ws1) :
    (∀ i j, (∃ ps ∈ systems, ∃ q ∈ ps.particles, ws.cellOf q = some (i, j)) →
      ∃ l1 p l2, allParticles systems = l1 ++ p :: l2 ∧ ws.cellOf p = some (i, j) ∧
        (∀ q ∈ l2, ws.cellOf q ≠ some (i, j)) ∧ ws1.renderData i j = p.value) ∧
    (∀ l1 p l2 i j, allParticles systems = l1 ++ p :: l2 → ws.cellOf p = some (i, j) →
      (∀ q ∈ l2, ws.cellOf q ≠ some (i, j)) → ws1.renderData i j = p.value) ∧
    (∀ i j, (∀ ps ∈ systems, ∀ q ∈ ps.particles, ws.cellOf q ≠ some (i, j)) →
      ws1.renderData i j = ws.renderData i j) ∧
    (0 < ws.rows → 0 < ws.cols →
      (∀ ps ∈ systems, ∀ p ∈ ps.particles,
        0 ≤ p.x ∧ p.x < 2147483648 ∧ 0 ≤ p.y ∧ p.y / 2.222 < 2147483648) →
      ∃ ws2, ws.getRenderData systems = some ws2) := by
  rw [getRenderData_eq_renderParticles] at h
  obtain ⟨-, hgrid, -⟩ := renderParticles_some _ ws ws1 h
  refine ⟨?_, ?_, ?_, ?_⟩
  · rintro i j ⟨ps, hps, q, hq, hc⟩
    cases ht : lastTag ws i j (allParticles systems) with
    | none =>
      exact absurd hc ((lastTag_eq_none ws i j _).mp ht q
        ((mem_allParticles systems q).mpr ⟨ps, hps, hq⟩))
    | some v =>
      obtain ⟨l1, p, l2, hl, hp, hl2, hv⟩ := lastTag_decompose ws i j _ v ht
      exact ⟨l1, p, l2, hl, hp, hl2, by rw [hgrid, ht, hv]; rfl⟩
  · intro l1 p l2 i j hl hp hl2
    rw [hgrid, hl, lastTag_of_last ws i j l1 l2 p hp hl2]; rfl
  · intro i j hnone
    have : lastTag ws i j (allParticles systems) = none := by
      rw [lastTag_eq_none]
      intro q hq
      obtain ⟨ps, hps, hqp⟩ := (mem_allParticles systems q).mp hq
      exact hnone ps hps q hqp
    rw [hgrid, this]; rfl
  · intro hr hc hall
    apply getRenderData_defined ws systems hr hc
    intro p hp
    obtain ⟨ps, hps, hpp⟩ := (mem_allParticles systems p).mp hp
    exact hall ps hps p hpp

/-- C18. In a world space with `rows > 0`, `cols > 0` (both `int` values),
`width = cols` and `height = rows * 2.222`, for every particle with
`0 ≤ x ≤ width` and `0 ≤ y ≤ height` the two conversions to `int` are defined, the
indices `col = min(trunc(x), cols - 1)` and `row = min(trunc(y / 2.222), rows - 1)`
satisfy `0 ≤ col < cols` and `0 ≤ row < rows`, and the store of the loop body of
`getRenderData` is inside the grid. -/
theorem rasterization_in_grid (ws : WorldSpace) (p : Particle)
    (hr : 0 < ws.rows) (hc : 0 < ws.cols)
    (hr2 : ws.rows ≤ 2147483647) (hc2 : ws.cols ≤ 2147483647)
    (hw : ws.width = (ws.cols : ℚ)) (hh : ws.height = (ws.rows : ℚ) * 2.222)
    (hx0 : 0 ≤ p.x) (hx1 : p.x ≤ ws.width) (hy0 : 0 ≤ p.y) (hy1 : p.y ≤ ws.height) :
    toInt p.x = some (Int.tdiv p.x.num p.x.den) ∧
    toInt (p.y / 2.222) = some (Int.tdiv (p.y / 2.222).num (p.y / 2.222).den) ∧
    ws.cellOf p = some (min (Int.tdiv (p.y / 2.222).num (p.y / 2.222).den) (ws.rows - 1),
      min (Int.tdiv p.x.num p.x.den) (ws.cols - 1)) ∧
    0 ≤ min (Int.tdiv p.x.num p.x.den) (ws.cols - 1) ∧
    min (Int.tdiv p.x.num p.x.den) (ws.cols - 1) < ws.cols ∧
    0 ≤ min (Int.tdiv (p.y / 2.222).num (p.y / 2.222).den) (ws.rows - 1) ∧
    min (Int.tdiv (p.y / 2.222).num (p.y / 2.222).den) (ws.rows - 1) < ws.rows ∧
    ∃ ws1, ws.renderParticle p = some ws1 := by
  have hq0 : 0 ≤ p.y / 2.222 := div_nonneg hy0 (by norm_num)
  have hx2 : p.x < 2147483648 := by
    have : (ws.cols : ℚ) ≤ 2147483647 := by exact_mod_cast hc2
    rw [hw] at hx1; linarith
  have hy2 : p.y / 2.222 < 2147483648 := by
    have : (ws.rows : ℚ) ≤ 2147483647 := by exact_mod_cast hr2
    have : p.y / 2.222 ≤ (ws.rows : ℚ) := by
      rw [div_le_iff₀ (by norm_num)]; rw [hh] at hy1; exact hy1
    linarith
  obtain ⟨hcell, hin⟩ := cellOf_inGrid ws p hr hc hx0 hx2 hy0 hy2
  rw [trunc_eq_floor p.x hx0, trunc_eq_floor _ hq0]
  exact ⟨toInt_of_nonneg p.x hx0 hx2, toInt_of_nonneg _ hq0 hy2, hcell, hin.2.2.1, hin.2.2.2,
    hin.1, hin.2.1, _, renderParticle_of_cell ws p _ hcell hin⟩

/-- Witness of C18: the far corner `(33, 33.33)` of `WorldSpace(15, 33)`. -/
theorem rasterization_in_grid_witness :
    ∃ ws1, (WorldSpace.new 15 33 (fun _ => 0)).renderParticle (Particle.new 33 33.33 2)
      = some ws1 :=
  (rasterization_in_grid (WorldSpace.new 15 33 (fun _ => 0)) (Particle.new 33 33.33 2)
    (by decide) (by decide) (by decide) (by decide) (by simp [WorldSpace.new])
    (by simp [WorldSpace.new]) (by norm_num [Particle.new])
    (by norm_num [Particle.new, WorldSpace.new]) (by norm_num [Particle.new])
    (by norm_num [Particle.new, WorldSpace.new])).2.2.2.2.2.2.2

/-! ## Reset, repaint and idempotence -/

theorem resetRow_fold (n : Nat) (g : Int → Int → Int) (i a b : Int) :
    (List.range n).foldl (fun (g : Int → Int → Int) (j : Nat) =>
        fun a b => if a = i ∧ b = (j : Int) then 0 else g a b) g a b
      = if a = i ∧ 0 ≤ b ∧ b < (n : Int) then 0 else g a b := by
  induction n with
  | zero =>
    simp only [List.range_zero, List.foldl_nil, Nat.cast_zero]
    rw [if_neg]; omega
  | succ n ih =>
    rw [List.range_succ, List.foldl_append, List.foldl_cons, List.foldl_nil]
    simp only [ih]
    push_cast
    clear ih
    by_cases h1 : a = i ∧ b = (n : Int)
    · rw [if_pos h1, if_pos ⟨h1.1, by omega, by omega⟩]
    · rw [if_neg h1]
      by_cases h2 : a = i ∧ 0 ≤ b ∧ b < (n : Int)
      · rw [if_pos h2, if_pos ⟨h2.1, h2.2.1, by omega⟩]
      · rw [if_neg h2, if_neg]
        rintro ⟨ha, hb0, hb1⟩
        by_cases hb : b = (n : Int)
        · exact h1 ⟨ha, hb⟩
        · exact h2 ⟨ha, hb0, by omega⟩

theorem resetRow_apply (cols : Int) (g : Int → Int → Int) (i a b : Int) :
    resetRow cols g i a b = if a = i ∧ 0 ≤ b ∧ b < cols then 0 else g a b := by
  unfold resetRow
  rw [resetRow_fold]
  by_cases h : a = i ∧ 0 ≤ b ∧ b < cols
  · rw [if_pos h, if_pos ⟨h.1, h.2.1, by omega⟩]
  · rw [if_neg h, if_neg]
    rintro ⟨ha, hb0, hb1⟩
    exact h ⟨ha, hb0, by omega⟩

theorem resetRows_fold (n : Nat) (cols : Int) (g : Int → Int → Int) (a b : Int) :
    (List.range n).foldl (fun (g : Int → Int → Int) (i : Nat) => resetRow cols g (i : Int)) g a b
      = if 0 ≤ a ∧ a < (n : Int) ∧ 0 ≤ b ∧ b < cols then 0 else g a b := by
  induction n with
  | zero =>
    simp only [List.range_zero, List.foldl_nil, Nat.cast_zero]
    rw [if_neg]; omega
  | succ n ih =>
    rw [List.range_succ, List.foldl_append, List.foldl_cons, List.foldl_nil, resetRow_apply, ih]
    push_cast
    clear ih
    by_cases h1 : a = (n : Int) ∧ 0 ≤ b ∧ b < cols
    · rw [if_pos h1, if_pos ⟨by omega, by omega, h1.2.1, h1.2.2⟩]
    · rw [if_neg h1]
      by_cases h2 : 0 ≤ a ∧ a < (n : Int) ∧ 0 ≤ b ∧ b < cols
      · rw [if_pos h2, if_pos ⟨h2.1, by omega, h2.2.2.1, h2.2.2.2⟩]
      · rw [if_neg h2, if_neg]
        rintro ⟨ha0, ha1, hb0, hb1⟩
        by_cases ha : a = (n : Int)
        · exact h1 ⟨ha, hb0, hb1⟩
        · exact h2 ⟨ha0, by omega, hb0, hb1⟩

/-- The grid after `resetRenderData`: `0` in every cell of the grid. -/
theorem resetRenderData_apply (ws : WorldSpace) (a b : Int) :
    ws.resetRenderData.renderData a b = if ws.InGrid a b then 0 else ws.renderData a b := by
  unfold WorldSpace.resetRenderData WorldSpace.InGrid
  simp only
  rw [resetRows_fold]
  by_cases h : 0 ≤ a ∧ a < ws.rows ∧ 0 ≤ b ∧ b < ws.cols
  · rw [if_pos h, if_pos ⟨h.1, by omega, h.2.2.1, h.2.2.2⟩]
  · rw [if_neg h, if_neg]
    rintro ⟨ha0, ha1, hb0, hb1⟩
    exact h ⟨ha0, by omega, hb0, hb1⟩

theorem inGrid_congr (ws ws1 : WorldSpace) (i j : Int) (hr : ws1.rows = ws.rows)
    (hc : ws1.cols = ws.cols) : ws1.InGrid i j ↔ ws.InGrid i j := by
  unfold WorldSpace.InGrid; rw [hr, hc]

/-- The grid after a reset followed by a pass over `l`, on the cells of the
grid. -/
theorem reset_render_grid (ws ws1 : WorldSpace) (l : List Particle)
    (h : ws.resetRenderData.renderParticles l = some ws1) (i j : Int) (hin : ws.InGrid i j) :
    ws1.renderData i j = (lastTag ws i j l).getD 0 := by
  obtain ⟨-, hgrid, -⟩ := renderParticles_some l _ ws1 h
  rw [hgrid, resetRenderData_apply, if_pos hin, lastTag_congr ws ws.resetRenderData i j l rfl rfl]

/-- C11. `resetRenderData` sets every cell of the `rows x cols` grid to `0` and
changes nothing else; when the following `getRenderData` returns, every cell of
the grid holds `0` or the value tag of a registered particle that has this cell,
and the same grid results from any other content before the reset; the call
returns whenever every registered particle is at a non-negative position whose
integer parts fit an `int` and the grid has `rows > 0`, `cols > 0`. -/
theorem grid_fully_derived (ws ws1 : WorldSpace) (systems : List ParticleSystem)
    (g : Int → Int → Int)
    (h : ws.resetRenderData.getRenderData systems = some ws1) :
    (∀ i j, ws.InGrid i j → ws.resetRenderData.renderData i j = 0) ∧
    ws.resetRenderData = { ws with renderData := ws.resetRenderData.renderData } ∧
    (∀ i j, ws.InGrid i j →
      ws1.renderData i j = 0 ∨
      ∃ ps ∈ systems, ∃ p ∈ ps.particles,
        ws.cellOf p = some (i, j) ∧ ws1.renderData i j = p.value) ∧
    (∃ ws2, ({ ws with renderData := g }).resetRenderData.getRenderData systems = some ws2 ∧
      ∀ i j, ws.InGrid i j → ws2.renderData i j = ws1.renderData i j) ∧
    (0 < ws.rows → 0 < ws.cols →
      (∀ ps ∈ systems, ∀ p ∈ ps.particles,
        0 ≤ p.x ∧ p.x < 2147483648 ∧ 0 ≤ p.y ∧ p.y / 2.222 < 2147483648) →
      ∃ ws3, ws.resetRenderData.getRenderData systems = some ws3) := by
  rw [getRenderData_eq_renderParticles] at h
  refine ⟨?_, rfl, ?_, ?_, ?_⟩
  · intro i j hin
    rw [resetRenderData_apply, if_pos hin]
  · intro i j hin
    rw [reset_render_grid ws ws1 _ h i j hin]
    cases ht : lastTag ws i j (allParticles systems) with
    | none => exact Or.inl rfl
    | some v =>
      obtain ⟨p, hp, hc, hv⟩ := lastTag_eq_some ws i j _ v ht
      obtain ⟨ps, hps, hpp⟩ := (mem_allParticles systems p).mp hp
      exact Or.inr ⟨ps, hps, p, hpp, hc, hv.symm⟩
  · obtain ⟨-, -, hcells⟩ := renderParticles_some _ _ ws1 h
    have hdef : ∃ ws2, ({ ws with renderData := g } : WorldSpace).resetRenderData.renderParticles
        (allParticles systems) = some ws2 := by
      apply renderParticles_defined
      intro p hp
      obtain ⟨c, hc, hcin⟩ := hcells p hp
      exact ⟨c, (cellOf_congr ws.resetRenderData _ p rfl rfl).trans hc, hcin⟩
    obtain ⟨ws2, h2⟩ := hdef
    refine ⟨ws2, by rw [getRenderData_eq_renderParticles]; exact h2, fun i j hin => ?_⟩
    rw [reset_render_grid ws ws1 _ h i j hin,
      reset_render_grid ({ ws with renderData := g }) ws2 _ h2 i j hin]
    rw [lastTag_congr ws ({ ws with renderData := g }) i j _ rfl rfl]
  · intro hr hc hall
    apply getRenderData_defined ws.resetRenderData systems hr hc
    intro p hp
    obtain ⟨ps, hps, hpp⟩ := (mem_allParticles systems p).mp hp
    exact hall ps hps p hpp

/-- A second pass over the same particles repaints the same grid. -/
theorem renderParticles_idempotent (l : List Particle) (ws ws1 : WorldSpace)
    (h : ws.renderParticles l = some ws1) : ws1.renderParticles l = some ws1 := by
  obtain ⟨hframe, hgrid, hcells⟩ := renderParticles_some l ws ws1 h
  have hr : ws1.rows = ws.rows := by rw [hframe]
  have hc : ws1.cols = ws.cols := by rw [hframe]
  obtain ⟨ws2, h2⟩ := renderParticles_defined l ws1 (by
    intro p hp
    obtain ⟨c, hcell, hin⟩ := hcells p hp
    exact ⟨c, (cellOf_congr ws ws1 p hr hc).trans hcell, (inGrid_congr ws ws1 _ _ hr hc).mpr hin⟩)
  obtain ⟨hframe2, hgrid2, -⟩ := renderParticles_some l ws1 ws2 h2
  have hsame : ws2.renderData = ws1.renderData := by
    funext i j
    rw [hgrid2, lastTag_congr ws ws1 i j l hr hc, hgrid]
    cases lastTag ws i j l <;> rfl
  rw [h2, hframe2, hsame]

/-- C20. When `getRenderData` returns, every registered system, with every
particle of it, is as before, and so are `buffer`, `buffer_counter`, the message
buffer, the write cursor and the dimensions; a second call on the result returns
the result itself, so two calls in a row leave the grid of one call; the call
returns whenever every registered particle is at a non-negative position whose
integer parts fit an `int` and the grid has `rows > 0`, `cols > 0`. -/
theorem getRenderData_pure_repaint (w w1 : World) (h : w.getRenderData = some w1) :
    w1.particleSystems = w.particleSystems ∧
    w1.ws.buffer = w.ws.buffer ∧ w1.ws.buffer_counter = w.ws.buffer_counter ∧
    w1.ws.charBuffer = w.ws.charBuffer ∧ w1.ws.charBuffer_index = w.ws.charBuffer_index ∧
    w1.ws.rows = w.ws.rows ∧ w1.ws.cols = w.ws.cols ∧
    w1.ws.width = w.ws.width ∧ w1.ws.height = w.ws.height ∧
    w1.getRenderData = some w1 ∧
    w.getRenderData.bind World.getRenderData = w.getRenderData ∧
    (0 < w.ws.rows → 0 < w.ws.cols →
      (∀ ps ∈ w.particleSystems, ∀ p ∈ ps.particles,
        0 ≤ p.x ∧ p.x < 2147483648 ∧ 0 ≤ p.y ∧ p.y / 2.222 < 2147483648) →
      ∃ w2, w.getRenderData = some w2) := by
  unfold World.getRenderData at h
  cases hws : w.ws.getRenderData w.particleSystems with
  | none => rw [hws] at h; cases h
  | some ws1 =>
    rw [hws] at h
    cases h
    have hrp := hws
    rw [getRenderData_eq_renderParticles] at hrp
    obtain ⟨hframe, -, -⟩ := renderParticles_some _ _ ws1 hrp
    have hidem : ws1.getRenderData w.particleSystems = some ws1 := by
      rw [getRenderData_eq_renderParticles]
      exact renderParticles_idempotent _ _ _ hrp
    have hagain : World.getRenderData { w with ws := ws1 } = some { w with ws := ws1 } := by
      unfold World.getRenderData
      simp only [hidem]
    refine ⟨rfl, ?_, ?_, ?_, ?_, ?_, ?_, ?_, ?_, hagain, ?_, ?_⟩
    any_goals (simp only; rw [hframe])
    · unfold World.getRenderData
      rw [hws]
      exact hagain
    · intro hr hc hall
      obtain ⟨ws2, h2⟩ := getRenderData_defined w.ws w.particleSystems hr hc (by
        intro p hp
        obtain ⟨ps, hps, hpp⟩ := (mem_allParticles _ p).mp hp
        exact hall ps hps p hpp)
      exact ⟨{ w with ws := ws2 }, by unfold World.getRenderData; rw [h2]⟩

/-! ## A rendered example -/

theorem getRenderData_single_cell (ws : WorldSpace) (p : Particle) (c : Int × Int)
    (hc : ws.cellOf p = some c) (hin : ws.InGrid c.1 c.2) :
    ws.getRenderData [ParticleSystem.mk [p]] = some { ws with
      renderData := fun i j => if i = c.1 ∧ j = c.2 then p.value else ws.renderData i j } :=
  (getRenderData_single ws p).trans (renderParticle_of_cell ws p c hc hin)

theorem cellOf_example (ws : WorldSpace) (hr : ws.rows = 15) (hc : ws.cols = 33) (v : Int) :
    ws.cellOf (Particle.new 5.0 11.11 v) = some (5, 5) := by
  have key := (cellOf_inGrid ws (Particle.new 5.0 11.11 v) (by omega) (by omega)
    (by norm_num [Particle.new]) (by norm_num [Particle.new]) (by norm_num [Particle.new])
    (by norm_num [Particle.new])).1
  have fy : ⌊(Particle.new 5.0 11.11 v).y / 2.222⌋ = 5 := by norm_num [Particle.new]
  have fx : ⌊(Particle.new 5.0 11.11 v).x⌋ = 5 := by norm_num [Particle.new]
  rw [fy, fx, hr, hc] at key
  rw [key]
  norm_num

theorem inGrid_example (ws : WorldSpace) (hr : ws.rows = 15) (hc : ws.cols = 33) :
    ws.InGrid 5 5 := by
  unfold WorldSpace.InGrid; omega

/-- Witness of C11: a grid filled with `7` is reset and one particle at
`(5.0, 11.11)` rendered; cell `(3, 4)` holds `0` after the reset. -/
theorem grid_fully_derived_witness :
    ({ WorldSpace.new 15 33 (fun _ => 0) with
        renderData := fun _ _ => 7 } : WorldSpace).resetRenderData.renderData 3 4 = 0 :=
  (grid_fully_derived ({ WorldSpace.new 15 33 (fun _ => 0) with renderData := fun _ _ => 7 }) _
    [ParticleSystem.mk [Particle.new 5.0 11.11 2]] (fun _ _ => 0)
    (getRenderData_single_cell _ _ (5, 5) (cellOf_example _ rfl rfl 2)
      (inGrid_example _ rfl rfl))).1 3 4 (by unfold WorldSpace.InGrid; decide)

theorem world_example_render :
    World.getRenderData
        { ws := WorldSpace.new 15 33 (fun _ => 0)
          particleSystems := [ParticleSystem.mk [Particle.new 5.0 11.11 2]] }
      = some
        { ws := { WorldSpace.new 15 33 (fun _ => 0) with
            renderData := fun i j => if i = 5 ∧ j = 5 then (Particle.new 5.0 11.11 2).value
              else (WorldSpace.new 15 33 (fun _ => 0)).renderData i j }
          particleSystems := [ParticleSystem.mk [Particle.new 5.0 11.11 2]] } := by
  unfold World.getRenderData
  rw [getRenderData_single_cell (WorldSpace.new 15 33 (fun _ => 0)) (Particle.new 5.0 11.11 2)
    (5, 5) (cellOf_example _ rfl rfl 2) (inGrid_example _ rfl rfl)]

/-- Witness of C20: the world of one particle at `(5.0, 11.11)` in
`WorldSpace(15, 33)`; the rendered world is a fixed point of the call. -/
theorem getRenderData_pure_repaint_witness :
    World.getRenderData
        { ws := { WorldSpace.new 15 33 (fun _ => 0) with
            renderData := fun i j => if i = 5 ∧ j = 5 then (Particle.new 5.0 11.11 2).value
              else (WorldSpace.new 15 33 (fun _ => 0)).renderData i j }
          particleSystems := [ParticleSystem.mk [Particle.new 5.0 11.11 2]] }
      = some
        { ws := { WorldSpace.new 15 33 (fun _ => 0) with
            renderData := fun i j => if i = 5 ∧ j = 5 then (Particle.new 5.0 11.11 2).value
              else (WorldSpace.new 15 33 (fun _ => 0)).renderData i j }
          particleSystems := [ParticleSystem.mk [Particle.new 5.0 11.11 2]] } :=
  (getRenderData_pure_repaint _ _ world_example_render).2.2.2.2.2.2.2.2.2.1

/-! ## Force accumulation in double arithmetic -/

theorem roundTiesEven_cert (q : ℚ) (f : Int) (h1 : (f : ℚ) ≤ q) (h2 : q < (f : ℚ) + 1) :
    roundTiesEven q =
      if q - (f : ℚ) < 1 / 2 then f else if 1 / 2 < q - (f : ℚ) then f + 1
      else if f % 2 = 0 then f else f + 1 := by
  have hf : ⌊q⌋ = f := Int.floor_eq_iff.mpr ⟨h1, h2⟩
  unfold roundTiesEven
  simp only [hf]

/-- Evaluation of `roundDouble` from a certificate: the binade `e` of `q` and the
integer part `f` of `q` in units of the last place. -/
theorem roundDouble_cert (q : ℚ) (e f n : Int) (h0 : q ≠ 0) (h1 : (2 : ℚ) ^ e ≤ |q|)
    (h2 : |q| < (2 : ℚ) ^ (e + 1)) (he : -1022 ≤ e)
    (hf1 : (f : ℚ) ≤ q / (2 : ℚ) ^ (e - 52)) (hf2 : q / (2 : ℚ) ^ (e - 52) < (f : ℚ) + 1)
    (hn : (if q / (2 : ℚ) ^ (e - 52) - (f : ℚ) < 1 / 2 then f
      else if 1 / 2 < q / (2 : ℚ) ^ (e - 52) - (f : ℚ) then f + 1
      else if f % 2 = 0 then f else f + 1) = n) :
    roundDouble q = (n : ℚ) * (2 : ℚ) ^ (e - 52) := by
  have hpos : 0 < |q| := abs_pos.mpr h0
  have hlog : Int.log 2 |q| = e := by
    have a := (Int.zpow_le_iff_le_log (R := ℚ) (b := 2) (by norm_num) hpos).mp
      (by exact_mod_cast h1)
    have b := (Int.lt_zpow_iff_log_lt (R := ℚ) (b := 2) (by norm_num) hpos).mp
      (by exact_mod_cast h2)
    omega
  unfold roundDouble
  rw [if_neg h0]
  simp only [hlog, max_eq_left he]
  rw [roundTiesEven_cert _ f hf1 hf2, hn]

theorem fadd_cert (a b r : ℚ) (hr : roundDouble (a + b) = r) (hfin : |r| < (2 : ℚ) ^ (1024 : ℕ)) :
    fadd a b = some r := by
  unfold fadd
  simp only [hr, if_pos hfin]

theorem ieee_tenth : roundDouble (-0.1) = -3602879701896397 / 36028797018963968 := by
  rw [roundDouble_cert (-0.1) (-4) (-7205759403792794) (-7205759403792794) (by norm_num)
    (by norm_num [abs_of_neg]) (by norm_num [abs_of_neg]) (by norm_num) (by norm_num)
    (by norm_num) (by norm_num)]
  norm_num

theorem ieee_four_tenths : roundDouble (-0.4) = -3602879701896397 / 9007199254740992 := by
  rw [roundDouble_cert (-0.4) (-2) (-7205759403792794) (-7205759403792794) (by norm_num)
    (by norm_num [abs_of_neg]) (by norm_num [abs_of_neg]) (by norm_num) (by norm_num)
    (by norm_num) (by norm_num)]
  norm_num

theorem fadd_zero_zero : fadd 0 0 = some 0 := by
  apply fadd_cert
  · simp [roundDouble]
  · norm_num

theorem fadd_zero_tenth : fadd 0 (-3602879701896397 / 36028797018963968)
    = some (-3602879701896397 / 36028797018963968) := by
  apply fadd_cert
  · rw [roundDouble_cert _ (-4) (-7205759403792794) (-7205759403792794) (by norm_num)
      (by norm_num [abs_of_neg]) (by norm_num [abs_of_neg]) (by norm_num) (by norm_num)
      (by norm_num) (by norm_num)]
    norm_num
  · norm_num [abs_of_neg]

theorem fadd_tenth_tenth :
    fadd (-3602879701896397 / 36028797018963968) (-3602879701896397 / 36028797018963968)
      = some (-3602879701896397 / 18014398509481984) := by
  apply fadd_cert
  · rw [roundDouble_cert _ (-3) (-7205759403792794) (-7205759403792794) (by norm_num)
      (by norm_num [abs_of_neg]) (by norm_num [abs_of_neg]) (by norm_num) (by norm_num)
      (by norm_num) (by norm_num)]
    norm_num
  · norm_num [abs_of_neg]

theorem fadd_fifth_four_tenths :
    fadd (-3602879701896397 / 18014398509481984) (-3602879701896397 / 9007199254740992)
      = some (-5404319552844596 / 9007199254740992) := by
  apply fadd_cert
  · rw [roundDouble_cert _ (-1) (-5404319552844596) (-5404319552844596) (by norm_num)
      (by norm_num [abs_of_neg]) (by norm_num [abs_of_neg]) (by norm_num) (by norm_num)
      (by norm_num) (by norm_num)]
    norm_num
  · norm_num [abs_of_neg]

theorem fadd_tenth_four_tenths :
    fadd (-3602879701896397 / 36028797018963968) (-3602879701896397 / 9007199254740992)
      = some (-1 / 2) := by
  apply fadd_cert
  · rw [roundDouble_cert _ (-1) (-4503599627370497) (-4503599627370496) (by norm_num)
      (by norm_num [abs_of_neg]) (by norm_num [abs_of_neg]) (by norm_num) (by norm_num)
      (by norm_num) (by norm_num)]
    norm_num
  · norm_num [abs_of_neg]

theorem fadd_tenth_half :
    fadd (-3602879701896397 / 36028797018963968) (-1 / 2)
      = some (-5404319552844595 / 9007199254740992) := by
  apply fadd_cert
  · rw [roundDouble_cert _ (-1) (-5404319552844596) (-5404319552844595) (by norm_num)
      (by norm_num [abs_of_neg]) (by norm_num [abs_of_neg]) (by norm_num) (by norm_num)
      (by norm_num) (by norm_num)]
    norm_num
  · norm_num [abs_of_neg]

theorem fadd_comm (a b : ℚ) : fadd a b = fadd b a := by
  unfold fadd
  rw [add_comm]

theorem fadd_half_tenth :
    fadd (-1 / 2) (-3602879701896397 / 36028797018963968)
      = some (-5404319552844595 / 9007199254740992) := by
  rw [fadd_comm]
  exact fadd_tenth_half

theorem applyForceDouble_exact (p : Particle) (fx fy : ℚ) (hx : ExactAdd p.ax fx)
    (hy : ExactAdd p.ay fy) : p.applyForceDouble fx fy = some (p.applyForce fx fy) := by
  unfold ExactAdd at hx hy
  unfold Particle.applyForceDouble Particle.applyForce
  rw [hx, hy]

theorem applyForceDouble_frame (p q : Particle) (fx fy : ℚ)
    (h : p.applyForceDouble fx fy = some q) :
    q.x = p.x ∧ q.y = p.y ∧ q.vx = p.vx ∧ q.vy = p.vy ∧ q.value = p.value ∧
      fadd p.ax fx = some q.ax ∧ fadd p.ay fy = some q.ay := by
  unfold Particle.applyForceDouble at h
  cases hx : fadd p.ax fx with
  | none => rw [hx] at h; cases h
  | some ax =>
    cases hy : fadd p.ay fy with
    | none => rw [hx, hy] at h; cases h
    | some ay =>
      rw [hx, hy] at h
      cases h
      exact ⟨rfl, rfl, rfl, rfl, rfl, rfl, rfl⟩

theorem applyForce_add (p : Particle) (fx fy gx gy : ℚ) :
    (p.applyForce fx fy).applyForce gx gy = p.applyForce (fx + gx) (fy + gy) := by
  simp only [Particle.applyForce, add_assoc]

theorem applyForcesDouble_cons (f : ℚ × ℚ) (fs : List (ℚ × ℚ)) (p q : Particle)
    (h : p.applyForceDouble f.1 f.2 = some q) :
    applyForcesDouble (f :: fs) p = applyForcesDouble fs q := by
  rw [applyForcesDouble, h]

theorem applyForceDouble_of (p : Particle) (fx fy ax ay : ℚ) (hx : fadd p.ax fx = some ax)
    (hy : fadd p.ay fy = some ay) :
    p.applyForceDouble fx fy = some { p with ax := ax, ay := ay } := by
  unfold Particle.applyForceDouble
  rw [hx, hy]

/-- Two calls in double arithmetic whose four additions are exact. -/
theorem applyForceDouble_twice_exact (p : Particle) (fx fy gx gy : ℚ)
    (h1 : ExactAdd p.ax fx) (h2 : ExactAdd p.ay fy)
    (h3 : ExactAdd (p.ax + fx) gx) (h4 : ExactAdd (p.ay + fy) gy) :
    applyForcesDouble [(fx, fy), (gx, gy)] p = some (p.applyForce (fx + gx) (fy + gy)) := by
  rw [applyForcesDouble_cons _ _ p _ (applyForceDouble_exact p fx fy h1 h2),
    applyForcesDouble_cons _ _ _ _ (applyForceDouble_exact (p.applyForce fx fy) gx gy h3 h4),
    applyForce_add]
  rfl

/-- The pending `ax` after a sequence of calls that apply no force along y to a
new particle, from the double additions of the x components. -/
theorem ieee_three_calls (a b c s1 s2 s3 : ℚ) (h1 : fadd 0 a = some s1)
    (h2 : fadd s1 b = some s2) (h3 : fadd s2 c = some s3) :
    (applyForcesDouble [(a, 0), (b, 0), (c, 0)] (Particle.new 1 1 2)).map Particle.ax
      = some s3 := by
  rw [applyForcesDouble_cons _ _ _ _ (applyForceDouble_of _ _ _ _ _ h1 fadd_zero_zero),
    applyForcesDouble_cons _ _ _ _ (applyForceDouble_of _ _ _ _ _ h2 fadd_zero_zero),
    applyForcesDouble_cons _ _ _ _ (applyForceDouble_of _ _ _ _ _ h3 fadd_zero_zero)]
  rfl

theorem ieee_two_calls (a b s1 s2 : ℚ) (h1 : fadd 0 a = some s1)
    (h2 : fadd s1 b = some s2) :
    (applyForcesDouble [(a, 0), (b, 0)] (Particle.new 1 1 2)).map Particle.ax = some s2 := by
  rw [applyForcesDouble_cons _ _ _ _ (applyForceDouble_of _ _ _ _ _ h1 fadd_zero_zero),
    applyForcesDouble_cons _ _ _ _ (applyForceDouble_of _ _ _ _ _ h2 fadd_zero_zero)]
  rfl

/-- Counterexample to C10 as stated.  On a new particle the calls
`applyForce(-0.1, 0)`, `applyForce(-0.1, 0)`, `applyForce(-0.4, 0)` leave the
pending `ax = -0.6000000000000001` (`-5404319552844596 / 2^53`); with the last two
calls in the other order they leave `ax = -0.6` (`-5404319552844595 / 2^53`), and so
does the single call with the summed force `-0.1 + -0.4`, which is `-0.5` in double
arithmetic, in place of the last two. -/
theorem force_accumulation_counterexample :
    (applyForcesDouble
        [(roundDouble (-0.1), 0), (roundDouble (-0.1), 0), (roundDouble (-0.4), 0)]
        (Particle.new 1 1 2)).map Particle.ax
      = some (-5404319552844596 / 9007199254740992) ∧
    (applyForcesDouble
        [(roundDouble (-0.1), 0), (roundDouble (-0.4), 0), (roundDouble (-0.1), 0)]
        (Particle.new 1 1 2)).map Particle.ax
      = some (-5404319552844595 / 9007199254740992) ∧
    fadd (roundDouble (-0.1)) (roundDouble (-0.4)) = some (-1 / 2) ∧
    (applyForcesDouble [(roundDouble (-0.1), 0), (-1 / 2, 0)] (Particle.new 1 1 2)).map
        Particle.ax
      = some (-5404319552844595 / 9007199254740992) ∧
    (-5404319552844596 / 9007199254740992 : ℚ) ≠ -5404319552844595 / 9007199254740992 := by
  rw [ieee_tenth, ieee_four_tenths]
  exact ⟨ieee_three_calls _ _ _ _ _ _ fadd_zero_tenth fadd_tenth_tenth fadd_fifth_four_tenths,
    ieee_three_calls _ _ _ _ _ _ fadd_zero_tenth fadd_tenth_four_tenths fadd_half_tenth,
    fadd_tenth_four_tenths,
    ieee_two_calls _ _ _ _ fadd_zero_tenth fadd_tenth_half, by norm_num⟩

theorem exactAdd_cert (a b : ℚ) (e f : Int) (h0 : a + b ≠ 0) (h1 : (2 : ℚ) ^ e ≤ |a + b|)
    (h2 : |a + b| < (2 : ℚ) ^ (e + 1)) (he : -1022 ≤ e)
    (hf : (a + b) / (2 : ℚ) ^ (e - 52) = (f : ℚ)) (hfin : |a + b| < (2 : ℚ) ^ (1024 : ℕ)) :
    ExactAdd a b := by
  unfold ExactAdd
  apply fadd_cert _ _ _ _ hfin
  rw [roundDouble_cert (a + b) e f f h0 h1 h2 he (by rw [hf]) (by rw [hf]; linarith)
    (by rw [hf]; norm_num), ← hf]
  have hp : (2 : ℚ) ^ (e - 52) ≠ 0 := zpow_ne_zero _ (by norm_num)
  field_simp

theorem exactAdd_zero_zero : ExactAdd 0 0 := fadd_zero_zero.trans (by norm_num)

theorem exactAdd_examples :
    ExactAdd 0 1 ∧ ExactAdd 0 2 ∧ ExactAdd (0 + 1) 2 ∧ ExactAdd (0 + 2) 1 ∧ ExactAdd 0 (1 + 2) ∧
      ExactAdd (0 + 0) 0 ∧ ExactAdd 0 (0 + 0) := by
  refine ⟨?_, ?_, ?_, ?_, ?_, ?_, ?_⟩
  · exact exactAdd_cert _ _ 0 4503599627370496 (by norm_num) (by norm_num) (by norm_num)
      (by norm_num) (by norm_num) (by norm_num)
  · exact exactAdd_cert _ _ 1 4503599627370496 (by norm_num) (by norm_num) (by norm_num)
      (by norm_num) (by norm_num) (by norm_num)
  · exact exactAdd_cert _ _ 1 6755399441055744 (by norm_num) (by norm_num) (by norm_num)
      (by norm_num) (by norm_num) (by norm_num)
  · exact exactAdd_cert _ _ 1 6755399441055744 (by norm_num) (by norm_num) (by norm_num)
      (by norm_num) (by norm_num) (by norm_num)
  · exact exactAdd_cert _ _ 1 6755399441055744 (by norm_num) (by norm_num) (by norm_num)
      (by norm_num) (by norm_num) (by norm_num)
  · rw [add_zero]; exact exactAdd_zero_zero
  · rw [add_zero]; exact exactAdd_zero_zero

/-- C10, amended.  `applyForce(fx, fy)` adds `(fx, fy)` to the pending
acceleration, each component by one `double` addition, and changes no other
field, so calls accumulate in call order.  Whenever the additions involved are
exact (each sum is a finite double, nothing is rounded) the call in double
arithmetic is the call in exact arithmetic, and `applyForce(f1)` then
`applyForce(f2)` leaves the state of `applyForce(f1 + f2)`, in either order; in
exact arithmetic this law holds for all forces.  `update` behaves as if the
pending acceleration had first been added once to the velocity and then cleared
(the new axis velocity is `v + a`, negated and damped on a reflection), and it
leaves the pending acceleration `(0, 0)`. -/
theorem force_accumulation (p : Particle) (ws : WorldSpace) (fx fy gx gy : ℚ) :
    (∀ q, p.applyForceDouble fx fy = some q →
      q.x = p.x ∧ q.y = p.y ∧ q.vx = p.vx ∧ q.vy = p.vy ∧ q.value = p.value ∧
      fadd p.ax fx = some q.ax ∧ fadd p.ay fy = some q.ay) ∧
    (ExactAdd p.ax fx → ExactAdd p.ay fy →
      p.applyForceDouble fx fy = some (p.applyForce fx fy)) ∧
    (ExactAdd p.ax fx → ExactAdd p.ay fy → ExactAdd (p.ax + fx) gx → ExactAdd (p.ay + fy) gy →
      ExactAdd p.ax gx → ExactAdd p.ay gy → ExactAdd (p.ax + gx) fx → ExactAdd (p.ay + gy) fy →
      ExactAdd p.ax (fx + gx) → ExactAdd p.ay (fy + gy) →
      applyForcesDouble [(fx, fy), (gx, gy)] p = p.applyForceDouble (fx + gx) (fy + gy) ∧
      applyForcesDouble [(gx, gy), (fx, fy)] p = p.applyForceDouble (fx + gx) (fy + gy)) ∧
    p.applyForce fx fy = { p with ax := p.ax + fx, ay := p.ay + fy } ∧
    (p.applyForce fx fy).applyForce gx gy = p.applyForce (fx + gx) (fy + gy) ∧
    (p.applyForce gx gy).applyForce fx fy = p.applyForce (fx + gx) (fy + gy) ∧
    p.update ws = ({ p with vx := p.vx + p.ax, vy := p.vy + p.ay, ax := 0, ay := 0 }).update ws ∧
    (p.update ws).2.vx =
      (if p.x + (p.vx + p.ax) > ws.width ∨ p.x + (p.vx + p.ax) < 0
        then -(p.vx + p.ax) * 0.85 else p.vx + p.ax) ∧
    (p.update ws).2.vy =
      (if p.y + (p.vy + p.ay) > ws.height ∨ p.y + (p.vy + p.ay) < 0
        then -(p.vy + p.ay) * 0.85 else p.vy + p.ay) ∧
    (p.update ws).2.ax = 0 ∧ (p.update ws).2.ay = 0 := by
  refine ⟨fun q h => applyForceDouble_frame p q fx fy h,
    fun hx hy => applyForceDouble_exact p fx fy hx hy, ?_, rfl, applyForce_add p fx fy gx gy,
    ?_, ?_, ?_, ?_, ?_, ?_⟩
  · intro h1 h2 h3 h4 h5 h6 h7 h8 h9 h10
    rw [applyForceDouble_twice_exact p fx fy gx gy h1 h2 h3 h4,
      applyForceDouble_twice_exact p gx gy fx fy h5 h6 h7 h8,
      applyForceDouble_exact p (fx + gx) (fy + gy) h9 h10, add_comm gx fx, add_comm gy fy]
    exact ⟨rfl, rfl⟩
  · simp only [Particle.applyForce, add_assoc, add_comm gx fx, add_comm gy fy]
  · exact (update_consume p ws).symm
  · unfold Particle.update
    rw [updateY_vx, updateX_vx]
    split_ifs <;> ring
  · unfold Particle.update
    rw [updateY_vy, updateX_y, updateX_vy, updateX_ay]
    split_ifs <;> ring
  · unfold Particle.update; rw [updateY_ax, updateX_ax]
  · unfold Particle.update; rw [updateY_ay]

/-- Witness of the amended C10: the forces `(1, 0)` and `(2, 0)` on a new
particle, all of whose additions are exact, leave the state of the single force
`(3, 0)` in either order. -/
theorem force_accumulation_witness :
    applyForcesDouble [(1, 0), (2, 0)] (Particle.new 1 1 2)
        = (Particle.new 1 1 2).applyForceDouble (1 + 2) (0 + 0) ∧
      applyForcesDouble [(2, 0), (1, 0)] (Particle.new 1 1 2)
        = (Particle.new 1 1 2).applyForceDouble (1 + 2) (0 + 0) :=
  (force_accumulation (Particle.new 1 1 2) (WorldSpace.new 15 33 (fun _ => 0)) 1 0 2 0).2.2.1
    exactAdd_examples.1 exactAdd_zero_zero exactAdd_examples.2.2.1 exactAdd_examples.2.2.2.2.2.1
    exactAdd_examples.2.1 exactAdd_zero_zero exactAdd_examples.2.2.2.1
    exactAdd_examples.2.2.2.2.2.1 exactAdd_examples.2.2.2.2.1 exactAdd_examples.2.2.2.2.2.2

/-- Two systems of one particle each: the second store is made on the grid left
by the first. -/
theorem getRenderData_two_systems (ws : WorldSpace) (p1 p2 : Particle) (c1 c2 : Int × Int)
    (h1 : ws.cellOf p1 = some c1) (hin1 : ws.InGrid c1.1 c1.2)
    (h2 : ws.cellOf p2 = some c2) (hin2 : ws.InGrid c2.1 c2.2) :
    ws.getRenderData [ParticleSystem.mk [p1], ParticleSystem.mk [p2]] = some { ws with
      renderData := fun i j =>
        if i = c2.1 ∧ j = c2.2 then p2.value
        else if i = c1.1 ∧ j = c1.2 then p1.value else ws.renderData i j } := by
  rw [getRenderData_eq_renderParticles]
  simp only [allParticles, List.append_nil, List.singleton_append, WorldSpace.renderParticles,
    renderParticle_of_cell ws p1 c1 h1 hin1]
  have key := renderParticle_of_cell
    ({ ws with
      renderData := fun i j => if i = c1.1 ∧ j = c1.2 then p1.value else ws.renderData i j })
    p2 c2 ((cellOf_congr ws _ p2 rfl rfl).trans h2) ((inGrid_congr ws _ _ _ rfl rfl).mpr hin2)
  rw [key]

/-- Witness of C17: two registered systems, each with one particle at
`(5.0, 11.11)`, with tags 1 and 2, in `WorldSpace(15, 33)`; the contested cell
`(5, 5)` holds the tag of the particle of the second system. -/
theorem last_writer_wins_witness :
    ({ WorldSpace.new 15 33 (fun _ => 0) with
        renderData := fun i j =>
          if i = 5 ∧ j = 5 then (Particle.new 5.0 11.11 2).value
          else if i = 5 ∧ j = 5 then (Particle.new 5.0 11.11 1).value
          else (WorldSpace.new 15 33 (fun _ => 0)).renderData i j } : WorldSpace).renderData 5 5
      = (Particle.new 5.0 11.11 2).value :=
  (last_writer_wins (WorldSpace.new 15 33 (fun _ => 0)) _
    [ParticleSystem.mk [Particle.new 5.0 11.11 1], ParticleSystem.mk [Particle.new 5.0 11.11 2]]
    (getRenderData_two_systems _ _ _ (5, 5) (5, 5) (cellOf_example _ rfl rfl 1)
      (inGrid_example _ rfl rfl) (cellOf_example _ rfl rfl 2)
      (inGrid_example _ rfl rfl))).2.1 [Particle.new 5.0 11.11 1] (Particle.new 5.0 11.11 2) []
    5 5 rfl (cellOf_example _ rfl rfl 2) (fun _ hq => absurd hq (List.not_mem_nil _))

end BinaryBounce
